import Mathlib

/-!
# Pixel-transform engine of `jpegedge.c` and `jpegfunk1.c`

A shallow embedding of the two filter programs and the properties of their
per-pixel operators, of the row loop nest that applies them, and of the
command-line validation in `main`.

Modelling conventions.

* `unsigned char` is `Fin 256`.  `int` is `Int`; where the width of `int`
  decides a property (the index expression of the gradient operator, the
  result of `atoi`) the 32-bit value `int32` is taken.
* A channel pointer `RGB[c]` is a function from the element offset to the byte
  stored there.  The buffer that `malloc` returned covers the offsets
  `0 ≤ k < width * height` (`rgb_image.in_buffer`); the C code performs no
  bounds check, so the function is total and the buffer extent is a separate
  predicate.  An `rgb_image` is thus a snapshot of the memory reachable through
  the three pointers.
* The gradient filter reads inside the input buffers only, which do not change
  during the filter phase.  The rank operator reads past the end of the input
  buffers; `jpegfunk1.apply_filter` therefore evaluates each iteration on the
  heap as it is when the iteration takes effect (`seen`): inside the buffer the
  input byte, past its end a byte that may depend on the output written so far.
* In `jpegedge.c` the `double` values are integers: the Sobel sums are at most
  `4 * 255` in absolute value, the sum of their squares is an integer `m`, and
  the correctly rounded `sqrt(m)` truncates to `Nat.sqrt m`.
* In `jpegfunk1.c` a `double` is a rational and every arithmetic operation is
  followed by a rounding `R.fl`, of which only two facts are used: it preserves
  order and it leaves multiples of `1/4` unchanged (`rounding`).  Exact
  arithmetic (`exact_arithmetic`) is one such rounding; round-to-nearest binary
  floating point has both properties on the values an `int` can take.
* `(unsigned char) x` truncates toward zero and keeps the low eight bits.
* The `omp parallel for` region is a run: an assignment of the rows to the
  workers together with the global order in which the iterations take effect.
* `atoi` is `(int) strtol(s, NULL, 10)` with a 64-bit `long` and a 32-bit `int`.
-/

set_option autoImplicit false

/-! ## Data model -/

/-- The C type `unsigned char`. -/
abbrev uchar := Fin 256

/-- The `struct rgb_image`: dimensions and the three channel pointers. -/
structure rgb_image where
  height : Int
  width : Int
  RGB : Fin 3 → Int → uchar

namespace rgb_image

/-- The offset `k` lies inside the `width * height` bytes allocated per channel. -/
def in_buffer (img : rgb_image) (k : Int) : Prop :=
  0 ≤ k ∧ k < img.width * img.height

instance (img : rgb_image) (k : Int) : Decidable (img.in_buffer k) := by
  unfold in_buffer; infer_instance

/-- The assignment `out->RGB[rgb][k] = v`. -/
def store (out : rgb_image) (rgb : Fin 3) (k : Int) (v : uchar) : rgb_image :=
  { out with RGB := fun c i => if c = rgb ∧ i = k then v else out.RGB c i }

end rgb_image

/-- The narrowing cast `(unsigned char) x` of a non-negative integral value. -/
def to_uchar (n : Nat) : uchar := ⟨n % 256, Nat.mod_lt n (by decide)⟩

/-- The largest value of an `int`. -/
def INT_MAX : Int := 2147483647

/-- The 32-bit two's complement value of an `int` result: the identity on
`[-2^31, 2^31)`, wrap-around outside (where C leaves the result undefined). -/
def int32 (x : Int) : Int := (x + 2147483648) % 4294967296 - 2147483648

/-- The values `lo, lo+1, ..., hi-1` taken by `for (i = lo; i < hi; i++)`. -/
def int_range (lo hi : Int) : List Int :=
  (List.range (hi - lo).toNat).map fun (k : Nat) => lo + (k : Int)

/-! ## Row loop nest shared by both programs -/

/-- One iteration of the loop nest of `apply_filter`: `(row, col, rgb)`. -/
abbrev iteration := Int × Int × Fin 3

/-- The iterations of the two inner loops for a fixed `row`, in program order. -/
def row_iterations (input : rgb_image) (row : Int) : List iteration :=
  (int_range 0 input.width).flatMap fun col =>
    ([0, 1, 2] : List (Fin 3)).map fun rgb => (row, col, rgb)

/-- The rows of the outer loop, in sequential order. -/
def rows (input : rgb_image) : List Int := int_range 0 input.height

/-- The whole iteration space in sequential program order. -/
def iterations (input : rgb_image) : List iteration :=
  (rows input).flatMap (row_iterations input)

/-- The cell written by an iteration: channel and linear offset `row * width + col`. -/
def target (input : rgb_image) (it : iteration) : Fin 3 × Int :=
  (it.2.2, it.1 * input.width + it.2.1)

/-- The loop body
`output->RGB[rgb][row * width + col] = compute_pixel_value(input, row, col, rgb)`. -/
def body (op : rgb_image → Int → Int → Fin 3 → uchar) (input : rgb_image)
    (out : rgb_image) (it : iteration) : rgb_image :=
  out.store it.2.2 (it.1 * input.width + it.2.1) (op input it.1 it.2.1 it.2.2)

/-- A run of the work-shared row loop with `num_threads` workers: worker `t`
executes the rows `rows_of[t]`, every row is handed to exactly one worker, and
`order` is the global order in which the iterations of all workers take effect. -/
structure omp_run (input : rgb_image) (num_threads : Int) where
  rows_of : List (List Int)
  order : List iteration
  workers : (rows_of.length : Int) = num_threads
  shared : rows_of.flatten.Perm (rows input)
  interleaved : order.Perm (rows_of.flatten.flatMap (row_iterations input))

/-- The cells written during a run, in the order of the writes. -/
def omp_run.writes {input : rgb_image} {num_threads : Int}
    (r : omp_run input num_threads) : List (Fin 3 × Int) :=
  r.order.map (target input)

/-- The parallel loop nest of `apply_filter` for a per-pixel operator `op`. -/
def apply_filter_with (op : rgb_image → Int → Int → Fin 3 → uchar)
    (input output : rgb_image) (num_threads : Int)
    (r : omp_run input num_threads) : rgb_image :=
  r.order.foldl (body op input) output

/-- What `input->RGB[c][k]` yields while the output buffers hold `out`: the
input byte inside the `width * height` buffer, and past its end the heap byte
`beyond out c k`, which may be a byte of the output buffers or other memory. -/
def seen (beyond : rgb_image → Fin 3 → Int → uchar) (input out : rgb_image) : rgb_image :=
  { input with RGB := fun c k => if input.in_buffer k then input.RGB c k else beyond out c k }

/-- The loop body for an operator that is evaluated on the heap as it is when
the iteration takes effect. -/
def live_body (op : rgb_image → Int → Int → Fin 3 → uchar)
    (beyond : rgb_image → Fin 3 → Int → uchar) (input : rgb_image)
    (out : rgb_image) (it : iteration) : rgb_image :=
  out.store it.2.2 (it.1 * input.width + it.2.1)
    (op (seen beyond input out) it.1 it.2.1 it.2.2)

/-- The parallel loop nest of `apply_filter` for an operator `op` that may
dereference `input->RGB` past the end of the buffers. -/
def apply_filter_live (op : rgb_image → Int → Int → Fin 3 → uchar)
    (beyond : rgb_image → Fin 3 → Int → uchar) (input output : rgb_image)
    (num_threads : Int) (r : omp_run input num_threads) : rgb_image :=
  r.order.foldl (live_body op beyond input) output

/-- The run in which worker 0 executes every row in sequential order and the
other workers receive no row. -/
def omp_run.sequential (input : rgb_image) (num_threads : Nat) :
    omp_run input ((num_threads + 1 : Nat) : Int) where
  rows_of := rows input :: List.replicate num_threads []
  order := iterations input
  workers := by simp
  shared := by simp
  interleaved := by simp [iterations]

/-- The rows handed to worker `t` when the rows are dealt to `num_threads`
workers in turn (`schedule(static, 1)`). -/
def cyclic_rows (input : rgb_image) (num_threads : Int) (t : Nat) : List Int :=
  (rows input).filter fun r => r % num_threads = (t : Int)

/-- The run with `num_threads` workers in which the rows are dealt to the
workers in turn and the workers take effect one after the other. -/
def omp_run.cyclic (input : rgb_image) (num_threads : Int) (h : 0 < num_threads) :
    omp_run input num_threads where
  rows_of := (List.range num_threads.toNat).map (cyclic_rows input num_threads)
  order := ((List.range num_threads.toNat).map (cyclic_rows input num_threads)).flatten.flatMap
    (row_iterations input)
  workers := by
    rw [List.length_map, List.length_range]
    exact Int.toNat_of_nonneg h.le
  shared := by
    rw [List.perm_iff_count]
    intro a
    rw [List.count_flatten, List.map_map]
    have h1 := Int.emod_nonneg a h.ne'
    have h2 := Int.emod_lt_of_pos a h
    have hterm : ∀ t : Nat, (List.count a ∘ cyclic_rows input num_threads) t =
        if (a % num_threads).toNat = t then List.count a (rows input) else 0 := by
      intro t
      simp only [Function.comp, cyclic_rows]
      split_ifs with ht
      · exact List.count_filter (by simp; omega)
      · rw [List.count_eq_zero]
        intro hmem
        have := (List.mem_filter.1 hmem).2
        simp at this
        omega
    rw [List.map_congr_left (fun t _ => hterm t),
      ← List.sum_toFinset _ (List.nodup_range num_threads.toNat), Finset.sum_ite_eq]
    rw [if_pos]
    rw [List.mem_toFinset, List.mem_range]
    omega
  interleaved := List.Perm.refl _

/-! ## Gradient operator (`jpegedge.c`) -/

namespace jpegedge

/-- The table `Gx`. -/
def Gx : List (List Int) := [[-1, 0, 1], [-2, 0, 2], [-1, 0, 1]]

/-- The table `Gy`. -/
def Gy : List (List Int) := [[-1, -2, -1], [0, 0, 0], [1, 2, 1]]

/-- The table lookup `K[a][b]`. -/
def entry (K : List (List Int)) (a b : Int) : Int :=
  (K.getD a.toNat []).getD b.toNat 0

/-- The value of the index expression `(row + i) * width + col + j`. -/
def offset (img : rgb_image) (row col i j : Int) : Int :=
  (row + i) * img.width + col + j

/-- The index expression `(row + i) * width + col + j` as the program evaluates
it: every intermediate result is an `int`. -/
def index (img : rgb_image) (row col i j : Int) : Int :=
  int32 (int32 (int32 (int32 (row + i) * img.width) + col) + j)

/-- The border test of `compute_pixel_value`. -/
def is_border (img : rgb_image) (row col : Int) : Prop :=
  row = 0 ∨ col = 0 ∨ row = img.height - 1 ∨ col = img.width - 1

instance (img : rgb_image) (row col : Int) : Decidable (is_border img row col) := by
  unfold is_border; infer_instance

/-- The two nested loops accumulating `(S1, S2)`, each sample taken at the value
of its index expression (which the `int` evaluation `index` yields as long as
`width * height ≤ INT_MAX + 1`). -/
def sums (img : rgb_image) (row col : Int) (channel : Fin 3) : Int × Int :=
  ([-1, 0, 1] : List Int).foldl (fun acc i =>
    ([-1, 0, 1] : List Int).foldl (fun acc j =>
      let px : Int := ((img.RGB channel (offset img row col i j)).val : Int)
      (acc.1 + entry Gx (i + 1) (j + 1) * px, acc.2 + entry Gy (i + 1) (j + 1) * px))
      acc) (0, 0)

/-- The offsets dereferenced by a call, in the order of the loops: none at a
border pixel, the nine `int` indices of the 3×3 block otherwise. -/
def reads (img : rgb_image) (row col : Int) : List Int :=
  if is_border img row col then []
  else ([-1, 0, 1] : List Int).flatMap fun i =>
    ([-1, 0, 1] : List Int).map fun j => index img row col i j

/-- The function `compute_pixel_value` of `jpegedge.c`.  `S1*S1 + S2*S2` is a
natural number `m`; `MAX(sqrt(m), 70.0)` truncated toward zero is
`max (Nat.sqrt m) 70`, which the narrowing cast reduces modulo 256. -/
def compute_pixel_value (img : rgb_image) (row col : Int) (channel : Fin 3) : uchar :=
  if is_border img row col then 0
  else
    let S := sums img row col channel
    let mag := Nat.sqrt (S.1 * S.1 + S.2 * S.2).toNat
    let value := max mag 70
    to_uchar value

/-- The function `apply_filter` of `jpegedge.c`. -/
def apply_filter (input output : rgb_image) (num_threads : Int)
    (r : omp_run input num_threads) : rgb_image :=
  apply_filter_with compute_pixel_value input output num_threads r

end jpegedge

/-! ## Rounding of `double` arithmetic -/

/-- What is assumed of binary floating point: the result of an operation is the
exact result rounded by `fl`, which preserves order and leaves multiples of
`1/4` (in particular integers) unchanged. -/
structure rounding where
  fl : ℚ → ℚ
  order_preserving : Monotone fl
  exact_quarter : ∀ k : Int, fl ((k : ℚ) / 4) = (k : ℚ) / 4

/-- Arithmetic without rounding error. -/
def exact_arithmetic : rounding :=
  { fl := fun x => x, order_preserving := fun _ _ h => h, exact_quarter := fun _ => rfl }

/-! ## Rank operator (`jpegfunk1.c`) -/

namespace jpegfunk1

/-- The source text `MAX(x,y)`, that is `((x) > (y)) ? (x) : (y)`, on `double`. -/
def MAX (x y : ℚ) : ℚ := if x > y then x else y

/-- The source text `MIN(x,y)`, that is `((x) < (y)) ? (x) : (y)`, on `double`. -/
def MIN (x y : ℚ) : ℚ := if x < y then x else y

/-- The conversion of a `double` to `int`: truncation toward zero. -/
def to_int (x : ℚ) : Int := if 0 ≤ x then ⌊x⌋ else ⌈x⌉

/-- The narrowing cast `(unsigned char) x` of a `double`: truncate, keep eight bits. -/
def uchar_of_double (x : ℚ) : uchar := to_uchar (to_int x % 256).toNat

/-- The local `radius`: every `double` operation is followed by its rounding. -/
def radius (R : rounding) (img : rgb_image) (row col : Int) : ℚ :=
  MAX 1 (R.fl (R.fl (R.fl (5 * (col : ℚ)) / (img.width : ℚ)) +
    R.fl (R.fl (20 * (row : ℚ)) / (img.height : ℚ))))

/-- The local `row_lbound`. -/
def row_lbound (R : rounding) (img : rgb_image) (row col : Int) : Int :=
  to_int (MAX 0 (R.fl ((row : ℚ) - radius R img row col)))

/-- The local `row_ubound`. -/
def row_ubound (R : rounding) (img : rgb_image) (row col : Int) : Int :=
  to_int (MIN (img.height : ℚ) (R.fl ((row : ℚ) + radius R img row col)))

/-- The local `col_lbound`. -/
def col_lbound (R : rounding) (img : rgb_image) (row col : Int) : Int :=
  to_int (MAX 0 (R.fl ((col : ℚ) - radius R img row col)))

/-- The local `col_ubound`. -/
def col_ubound (R : rounding) (img : rgb_image) (row col : Int) : Int :=
  to_int (MIN (img.width : ℚ) (R.fl ((col : ℚ) + radius R img row col)))

/-- The local `num_values`. -/
def num_values (R : rounding) (img : rgb_image) (row col : Int) : Int :=
  (row_ubound R img row col - row_lbound R img row col + 1) *
    (col_ubound R img row col - col_lbound R img row col + 1)

/-- The cells `(i, j)` visited by the two inclusive loops, in program order. -/
def window (R : rounding) (img : rgb_image) (row col : Int) : List (Int × Int) :=
  (int_range (row_lbound R img row col) (row_ubound R img row col + 1)).flatMap fun i =>
    (int_range (col_lbound R img row col) (col_ubound R img row col + 1)).map fun j => (i, j)

/-- The offsets `i * width + j` dereferenced by the two loops, in program order. -/
def reads (R : rounding) (img : rgb_image) (row col : Int) : List Int :=
  (window R img row col).map fun p => p.1 * img.width + p.2

/-- The bytes stored through `ptr` into `values`, in program order. -/
def collect (R : rounding) (img : rgb_image) (row col : Int) (channel : Fin 3) :
    List uchar :=
  (reads R img row col).map fun k => img.RGB channel k

/-- The call `qsort(values, num_values, 1, compare_byte)`: ascending byte order. -/
def qsort (values : List uchar) : List uchar :=
  values.insertionSort (fun x y => x ≤ y)

/-- The value of `funky` computed from the collected bytes: `values[n-1]`,
`values[n/2]` and `values[0]` of the sorted array. -/
def funky (R : rounding) (values : List uchar) (n : Int) : ℚ :=
  let sorted := qsort values
  let hi := sorted.getD (n - 1).toNat 0
  let mid := sorted.getD (Int.tdiv n 2).toNat 0
  let lo := sorted.getD 0 0
  MAX 0 (R.fl (R.fl ((hi.val : ℚ) - R.fl ((mid.val : ℚ) / 2)) + R.fl ((lo.val : ℚ) / 4)))

/-- The function `compute_pixel_value` of `jpegfunk1.c`. -/
def compute_pixel_value (R : rounding) (img : rgb_image) (row col : Int)
    (channel : Fin 3) : uchar :=
  uchar_of_double (funky R (collect R img row col channel) (num_values R img row col))

/-- The function `apply_filter` of `jpegfunk1.c` (the per-thread timing is
diagnostic output only).  The operator dereferences `input->RGB` past the end
of the buffers, so each iteration is evaluated on the heap as it is at that
moment. -/
def apply_filter (R : rounding) (beyond : rgb_image → Fin 3 → Int → uchar)
    (input output : rgb_image) (num_threads : Int) (r : omp_run input num_threads) :
    rgb_image :=
  apply_filter_live (compute_pixel_value R) beyond input output num_threads r

end jpegfunk1

/-! ## Command line (`main` of both programs) -/

/-- The C library predicate `isspace` in the C locale. -/
def isspace (c : Char) : Bool := c.toNat = 32 ∨ (9 ≤ c.toNat ∧ c.toNat ≤ 13)

/-- The C library predicate `isdigit`. -/
def isdigit (c : Char) : Bool := 48 ≤ c.toNat ∧ c.toNat ≤ 57

/-- The value of the decimal digits in front of the text. -/
def leading_digits (s : List Char) : Nat :=
  (s.takeWhile isdigit).foldl (fun a d => 10 * a + (d.toNat - 48)) 0

/-- The number a text starts with: skip white space, read an optional sign
and the leading digits (0 when there are none). -/
def leading_value (s : List Char) : Int :=
  match s.dropWhile isspace with
  | [] => 0
  | c :: t =>
    if c.toNat = 45 then -(leading_digits t : Int)
    else if c.toNat = 43 then (leading_digits t : Int)
    else (leading_digits (c :: t) : Int)

/-- The C library call `strtol(s, NULL, 10)` with a 64-bit `long`: the number
the text starts with, saturated to `[-2^63, 2^63 - 1]`. -/
def strtol (s : List Char) : Int :=
  max (-(2 ^ 63)) (min (leading_value s) (2 ^ 63 - 1))

/-- The C library call `atoi(s)`, that is `(int) strtol(s, NULL, 10)`: the
conversion to `int` keeps the low 32 bits. -/
def atoi (s : String) : Int :=
  int32 (strtol s.toList)

/-- What a run of `main` does to the outside world. -/
inductive action
  | usage
  | echo_threads (n : Int)
  | not_positive
  | fopen_read (path : String)
  | cannot_read (path : String)
  | fopen_write (path : String)
  | cannot_write (path : String)
  | encode (path : String) (image : rgb_image)

/-- The outside world of a run: what decoding a path yields (`none` when the
file cannot be opened), which paths can be opened for writing, the bytes
found in freshly allocated channel buffers, and the bytes found past the end of
the input buffers while the output buffers hold a given content. -/
structure world where
  decode : String → Option rgb_image
  writable : String → Bool
  heap : Fin 3 → Int → uchar
  beyond : rgb_image → Fin 3 → Int → uchar

/-- The result of a run of `main`: the exit code and the actions in order. -/
structure outcome where
  exit_code : Int
  trace : List action

/-- The function `create_output_image`. -/
def create_output_image (w : world) (input : rgb_image) : rgb_image :=
  { height := input.height, width := input.width, RGB := w.heap }

/-- The function `main`, for the function `apply_filter` of the program.  The
run that deals the rows to the `num_threads` workers in turn stands for the
runs of the parallel loop. -/
def main_with
    (filter : (input : rgb_image) → rgb_image → (n : Int) → omp_run input n → rgb_image)
    (w : world) (argv : List String) : outcome :=
  if argv.length ≠ 4 then ⟨1, [action.usage]⟩
  else
    let num_threads := atoi (argv.getD 3 "")
    if h : num_threads ≤ 0 then ⟨1, [action.echo_threads num_threads, action.not_positive]⟩
    else
      let inp := argv.getD 1 ""
      let outp := argv.getD 2 ""
      match w.decode inp with
      | none =>
        ⟨1, [action.echo_threads num_threads, action.fopen_read inp, action.cannot_read inp]⟩
      | some input =>
        let output := create_output_image w input
        let output := filter input output num_threads
          (omp_run.cyclic input num_threads (not_le.1 h))
        if w.writable outp then
          ⟨0, [action.echo_threads num_threads, action.fopen_read inp,
            action.fopen_write outp, action.encode outp output]⟩
        else
          ⟨1, [action.echo_threads num_threads, action.fopen_read inp,
            action.fopen_write outp, action.cannot_write outp]⟩

/-- The function `main` of `jpegedge.c`. -/
def jpegedge.main (w : world) (argv : List String) : outcome :=
  main_with jpegedge.apply_filter w argv

/-- The function `main` of `jpegfunk1.c`. -/
def jpegfunk1.main (R : rounding) (w : world) (argv : List String) : outcome :=
  main_with (jpegfunk1.apply_filter R w.beyond) w argv

/-- An action that decodes the input or opens the output file. -/
def action.touches_files : action → Bool
  | action.fopen_read _ => true
  | action.fopen_write _ => true
  | action.encode _ _ => true
  | _ => false

/-- An action that creates the output file. -/
def action.creates_output : action → Bool
  | action.fopen_write _ => true
  | action.encode _ _ => true
  | _ => false

/-! ## Specification-side definitions -/

/-- The byte of channel `channel` at the cell `(row, col)`: offset `row * width + col`. -/
def sample (img : rgb_image) (channel : Fin 3) (row col : Int) : Int :=
  ((img.RGB channel (row * img.width + col)).val : Int)

/-- The kernel `Gx = [[-1,0,1],[-2,0,2],[-1,0,1]]` of the specification. -/
def spec_Gx (i j : Fin 3) : Int :=
  (([[-1, 0, 1], [-2, 0, 2], [-1, 0, 1]] : List (List Int)).getD i.val []).getD j.val 0

/-- The kernel `Gy = [[-1,-2,-1],[0,0,0],[1,2,1]]` of the specification. -/
def spec_Gy (i j : Fin 3) : Int :=
  (([[-1, -2, -1], [0, 0, 0], [1, 2, 1]] : List (List Int)).getD i.val []).getD j.val 0

/-- The sum `S1` of the specification: the 3×3 block centred at `(row, col)`
weighted by `Gx`. -/
def spec_S1 (img : rgb_image) (row col : Int) (channel : Fin 3) : Int :=
  ∑ i : Fin 3, ∑ j : Fin 3,
    spec_Gx i j * sample img channel (row + (i.val : Int) - 1) (col + (j.val : Int) - 1)

/-- The sum `S2` of the specification: the same block weighted by `Gy`. -/
def spec_S2 (img : rgb_image) (row col : Int) (channel : Fin 3) : Int :=
  ∑ i : Fin 3, ∑ j : Fin 3,
    spec_Gy i j * sample img channel (row + (i.val : Int) - 1) (col + (j.val : Int) - 1)

/-- The bytes of the channel buffer `RGB[channel]`, offsets `0` to `width * height - 1`. -/
def raster_bytes (img : rgb_image) (channel : Fin 3) : List Nat :=
  (List.range (img.width * img.height).toNat).map fun (k : Nat) =>
    (img.RGB channel (k : Int)).val

/-- The 4×4 raster holding 100 everywhere except 0 at the offset `k0`. -/
def corner_raster (k0 : Int) : rgb_image :=
  { height := 4, width := 4, RGB := fun _ k => if k = k0 then 0 else 100 }

/-- A 3×3 raster whose right column holds 64 and whose other samples hold 0. -/
def step_raster : rgb_image :=
  { height := 3, width := 3, RGB := fun _ k => if k % 3 = 2 then 64 else 0 }

/-- The memory of a raster with the dimensions of `img` whose channel buffers
hold 0 and in which every byte outside the buffers is `pad`. -/
def zero_buffers (img : rgb_image) (pad : uchar) : rgb_image :=
  { height := img.height, width := img.width,
    RGB := fun _ k => if img.in_buffer k then 0 else pad }

/-- A raster one sample wide and two samples high, holding 0 everywhere. -/
def thin_raster : rgb_image :=
  { height := 2, width := 1, RGB := fun _ _ => 0 }

/-- Freshly allocated output buffers for `thin_raster`, holding 255. -/
def fresh_output : rgb_image :=
  { height := 2, width := 1, RGB := fun _ _ => 255 }

/-- A heap in which the output buffer of channel 0 starts where the two-byte
input buffer of channel 2 ends; the bytes past the other input buffers hold 0. -/
def output_follows : rgb_image → Fin 3 → Int → uchar :=
  fun out c k => if c = 2 then out.RGB 0 (k - 2) else 0

/-- A run of the row loop of `thin_raster` with two workers, worker 0
executing row 0 and worker 1 executing row 1, in which worker 1 takes effect
before worker 0. -/
def late_row_first : omp_run thin_raster 2 where
  rows_of := [[0], [1]]
  order := [(1, 0, 0), (1, 0, 1), (1, 0, 2), (0, 0, 0), (0, 0, 1), (0, 0, 2)]
  workers := by decide
  shared := by decide
  interleaved := by decide

/-- A 50000×50000 raster holding 0 everywhere: more than `INT_MAX` samples. -/
def huge_raster : rgb_image :=
  { height := 50000, width := 50000, RGB := fun _ _ => 0 }

/-- The 1×1 raster holding 200 in every channel. -/
def unit_raster : rgb_image :=
  { height := 1, width := 1, RGB := fun _ _ => 200 }

/-- A world without readable or writable files whose fresh buffers hold 0. -/
def blank_world : world :=
  { decode := fun _ => none, writable := fun _ => false, heap := fun _ _ => 0,
    beyond := fun _ _ _ => 0 }

/-- A 2×2 raster with four different samples per channel. -/
def small_raster : rgb_image :=
  { height := 2, width := 2,
    RGB := fun c k => if k = 0 then 10 else if k = 1 then 40 else if k = 2 then 90 else c + 200 }

/-- A numeric argument: a non-empty text made of decimal digits only. -/
def numeric (s : String) : Bool :=
  !s.toList.isEmpty && s.toList.all isdigit

/-- The text starts, after white space and an optional sign, with a digit. -/
def starts_numeral (s : String) : Bool :=
  match s.toList.dropWhile isspace with
  | [] => false
  | c :: t =>
    if c.toNat = 45 ∨ c.toNat = 43 then
      match t with
      | [] => false
      | d :: _ => isdigit d
    else isdigit c

/-- A world in which every path decodes to the 1×1 raster and can be written. -/
def open_world : world :=
  { decode := fun _ => some unit_raster, writable := fun _ => true, heap := fun _ _ => 0,
    beyond := fun _ _ _ => 0 }

/-! ## Theorems -/

/-! ### Loops -/

theorem mem_int_range {lo hi i : Int} : i ∈ int_range lo hi ↔ lo ≤ i ∧ i < hi := by
  simp only [int_range, List.mem_map, List.mem_range]
  constructor
  · rintro ⟨k, hk, rfl⟩
    omega
  · intro h
    exact ⟨(i - lo).toNat, by omega, by omega⟩

theorem nodup_int_range (lo hi : Int) : (int_range lo hi).Nodup := by
  unfold int_range
  refine (List.nodup_range _).map ?_
  intro a b h
  simpa using h

theorem length_int_range (lo hi : Int) : (int_range lo hi).length = (hi - lo).toNat := by
  simp [int_range]

theorem mem_row_iterations {input : rgb_image} {row : Int} {it : iteration} :
    it ∈ row_iterations input row ↔ it.1 = row ∧ 0 ≤ it.2.1 ∧ it.2.1 < input.width := by
  obtain ⟨r, c, ch⟩ := it
  simp only [row_iterations, List.mem_flatMap, mem_int_range, List.mem_map]
  constructor
  · rintro ⟨col, hcol, rgb, _, h⟩
    simp only [Prod.mk.injEq] at h
    obtain ⟨rfl, rfl, rfl⟩ := h
    exact ⟨rfl, hcol⟩
  · rintro ⟨h1, h2⟩
    refine ⟨c, h2, ch, ?_, by rw [h1]⟩
    fin_cases ch <;> simp

theorem mem_iterations {input : rgb_image} {it : iteration} :
    it ∈ iterations input ↔
      (0 ≤ it.1 ∧ it.1 < input.height) ∧ 0 ≤ it.2.1 ∧ it.2.1 < input.width := by
  simp only [iterations, rows, List.mem_flatMap, mem_int_range, mem_row_iterations]
  constructor
  · rintro ⟨row, hrow, h1, h2⟩
    exact ⟨h1 ▸ hrow, h2⟩
  · rintro ⟨h1, h2⟩
    exact ⟨it.1, h1, rfl, h2⟩

theorem nodup_row_iterations (input : rgb_image) (row : Int) :
    (row_iterations input row).Nodup := by
  unfold row_iterations
  rw [List.nodup_flatMap]
  refine ⟨fun col _ => ?_, ?_⟩
  · refine List.Nodup.map ?_ (by decide)
    intro a b h
    simpa using h
  · refine (nodup_int_range 0 input.width).imp ?_
    intro a b hab
    simp only [Function.onFun, List.disjoint_left, List.mem_map]
    rintro x ⟨c1, _, rfl⟩ ⟨c2, _, h⟩
    simp only [Prod.mk.injEq] at h
    exact hab h.2.1.symm

theorem nodup_iterations (input : rgb_image) : (iterations input).Nodup := by
  unfold iterations rows
  rw [List.nodup_flatMap]
  refine ⟨fun row _ => nodup_row_iterations input row, ?_⟩
  refine (nodup_int_range 0 input.height).imp ?_
  intro a b hab
  simp only [Function.onFun, List.disjoint_left, mem_row_iterations]
  rintro x ⟨h1, _⟩ ⟨h2, _⟩
  exact hab (h1.symm.trans h2)

/-- Inside the iteration space the map to the written cell is injective. -/
theorem target_inj_on (input : rgb_image) (a b : iteration)
    (ha : a ∈ iterations input) (hb : b ∈ iterations input)
    (h : target input a = target input b) : a = b := by
  obtain ⟨r1, c1, ch1⟩ := a
  obtain ⟨r2, c2, ch2⟩ := b
  rw [mem_iterations] at ha hb
  simp only [target, Prod.mk.injEq] at h ha hb
  obtain ⟨hch, hoff⟩ := h
  have hr : r1 = r2 := by
    rcases lt_trichotomy r1 r2 with hlt | heq | hgt
    · exfalso
      have : (r1 + 1) * input.width ≤ r2 * input.width :=
        Int.mul_le_mul_of_nonneg_right (by omega) (by omega)
      nlinarith
    · exact heq
    · exfalso
      have : (r2 + 1) * input.width ≤ r1 * input.width :=
        Int.mul_le_mul_of_nonneg_right (by omega) (by omega)
      nlinarith
  subst hr
  have hc : c1 = c2 := by omega
  subst hc
  subst hch
  rfl

theorem nodup_targets (input : rgb_image) :
    ((iterations input).map (target input)).Nodup :=
  List.Nodup.map_on (fun a ha b hb h => target_inj_on input a b ha hb h)
    (nodup_iterations input)

/-! ### The loop body as a fold -/

theorem foldl_body_dims (op : rgb_image → Int → Int → Fin 3 → uchar) (input : rgb_image)
    (l : List iteration) (out : rgb_image) :
    (l.foldl (body op input) out).height = out.height ∧
      (l.foldl (body op input) out).width = out.width := by
  induction l generalizing out with
  | nil => exact ⟨rfl, rfl⟩
  | cons a l ih =>
    simp only [List.foldl_cons]
    exact ih (body op input out a)

theorem foldl_body_untouched (op : rgb_image → Int → Int → Fin 3 → uchar)
    (input : rgb_image) (l : List iteration) (out : rgb_image) (c : Fin 3) (k : Int)
    (h : (c, k) ∉ l.map (target input)) :
    (l.foldl (body op input) out).RGB c k = out.RGB c k := by
  induction l generalizing out with
  | nil => rfl
  | cons a l ih =>
    simp only [List.map_cons, List.mem_cons, not_or] at h
    simp only [List.foldl_cons]
    rw [ih (body op input out a) h.2]
    have h1 : ¬ (c = a.2.2 ∧ k = a.1 * input.width + a.2.1) := by
      rintro ⟨rfl, rfl⟩
      exact h.1 rfl
    simp [body, rgb_image.store, h1]

theorem foldl_body_written (op : rgb_image → Int → Int → Fin 3 → uchar)
    (input : rgb_image) (l : List iteration) (out : rgb_image)
    (hl : (l.map (target input)).Nodup) (it : iteration) (hit : it ∈ l) :
    (l.foldl (body op input) out).RGB it.2.2 (it.1 * input.width + it.2.1) =
      op input it.1 it.2.1 it.2.2 := by
  induction l generalizing out with
  | nil => simp at hit
  | cons a l ih =>
    simp only [List.map_cons, List.nodup_cons] at hl
    simp only [List.foldl_cons]
    rcases List.mem_cons.1 hit with rfl | hmem
    · rw [foldl_body_untouched op input l _ _ _ hl.1]
      simp [body, rgb_image.store]
    · exact ih _ hl.2 hmem

/-- The global order of every run is a rearrangement of the sequential order. -/
theorem omp_run.order_perm {input : rgb_image} {n : Int} (r : omp_run input n) :
    r.order.Perm (iterations input) :=
  r.interleaved.trans (List.Perm.flatMap_right _ r.shared)

theorem omp_run.nodup_writes {input : rgb_image} {n : Int} (r : omp_run input n) :
    r.writes.Nodup :=
  ((r.order_perm.map (target input)).nodup_iff).2 (nodup_targets input)

/-- Every run leaves the operator value in each cell of the iteration space. -/
theorem apply_filter_with_cell (op : rgb_image → Int → Int → Fin 3 → uchar)
    (input output : rgb_image) (n : Int) (r : omp_run input n)
    (row col : Int) (channel : Fin 3)
    (hrow : 0 ≤ row ∧ row < input.height) (hcol : 0 ≤ col ∧ col < input.width) :
    (apply_filter_with op input output n r).RGB channel (row * input.width + col) =
      op input row col channel := by
  have hmem : ((row, col, channel) : iteration) ∈ r.order :=
    r.order_perm.mem_iff.2 (mem_iterations.2 ⟨hrow, hcol⟩)
  exact foldl_body_written op input r.order output r.nodup_writes (row, col, channel) hmem

/-- A cell that is no target of the iteration space keeps its content. -/
theorem apply_filter_with_frame (op : rgb_image → Int → Int → Fin 3 → uchar)
    (input output : rgb_image) (n : Int) (r : omp_run input n)
    (c : Fin 3) (k : Int) (h : (c, k) ∉ (iterations input).map (target input)) :
    (apply_filter_with op input output n r).RGB c k = output.RGB c k := by
  refine foldl_body_untouched op input r.order output c k ?_
  intro hmem
  exact h (((r.order_perm.map (target input)).mem_iff).1 hmem)

/-- Two runs, with any worker counts, produce the same raster. -/
theorem apply_filter_with_run_irrelevant (op : rgb_image → Int → Int → Fin 3 → uchar)
    (input output : rgb_image) (n m : Int) (r : omp_run input n) (q : omp_run input m) :
    apply_filter_with op input output n r = apply_filter_with op input output m q := by
  have hd1 := foldl_body_dims op input r.order output
  have hd2 := foldl_body_dims op input q.order output
  have hRGB : (apply_filter_with op input output n r).RGB =
      (apply_filter_with op input output m q).RGB := by
    funext c k
    by_cases h : (c, k) ∈ (iterations input).map (target input)
    · obtain ⟨it, hit, hk⟩ := List.mem_map.1 h
      simp only [target, Prod.mk.injEq] at hk
      obtain ⟨rfl, rfl⟩ := hk
      rw [mem_iterations] at hit
      rw [apply_filter_with_cell op input output n r it.1 it.2.1 it.2.2 hit.1 hit.2,
        apply_filter_with_cell op input output m q it.1 it.2.1 it.2.2 hit.1 hit.2]
    · rw [apply_filter_with_frame op input output n r c k h,
        apply_filter_with_frame op input output m q c k h]
  unfold apply_filter_with at hRGB ⊢
  generalize List.foldl (body op input) output r.order = A at *
  generalize List.foldl (body op input) output q.order = B at *
  cases A; cases B
  simp only [rgb_image.mk.injEq] at *
  exact ⟨hd1.1.trans hd2.1.symm, hd1.2.trans hd2.2.symm, hRGB⟩

/-! ### Gradient operator -/

theorem jpegedge.sums_eq (img : rgb_image) (row col : Int) (channel : Fin 3) :
    jpegedge.sums img row col channel = (spec_S1 img row col channel, spec_S2 img row col channel) := by
  simp only [jpegedge.sums, jpegedge.entry, jpegedge.Gx, jpegedge.Gy, jpegedge.offset,
    spec_S1, spec_S2, spec_Gx, spec_Gy, sample, List.foldl, Fin.sum_univ_three]
  simp
  constructor <;> ring_nf

theorem jpegedge.value_interior (img : rgb_image) (row col : Int) (channel : Fin 3)
    (h : ¬ jpegedge.is_border img row col) :
    jpegedge.compute_pixel_value img row col channel =
      to_uchar (max (Nat.sqrt (spec_S1 img row col channel * spec_S1 img row col channel +
        spec_S2 img row col channel * spec_S2 img row col channel).toNat) 70) := by
  simp [jpegedge.compute_pixel_value, h, jpegedge.sums_eq]

theorem to_uchar_val (n : Nat) : (to_uchar n).val = n % 256 := rfl

/-- The value left at an offset of the buffer, in terms of its cell. -/
theorem apply_filter_with_offset (op : rgb_image → Int → Int → Fin 3 → uchar)
    (input output : rgb_image) (n : Int) (r : omp_run input n) (channel : Fin 3) (k : Int)
    (hw : 0 < input.width) (hk : 0 ≤ k ∧ k < input.width * input.height) :
    (apply_filter_with op input output n r).RGB channel k =
      op input (k / input.width) (k % input.width) channel := by
  have hdecomp : k / input.width * input.width + k % input.width = k :=
    Int.ediv_add_emod' k input.width
  have hcol : 0 ≤ k % input.width ∧ k % input.width < input.width :=
    ⟨Int.emod_nonneg k hw.ne', Int.emod_lt_of_pos k hw⟩
  have hrow : 0 ≤ k / input.width ∧ k / input.width < input.height := by
    refine ⟨Int.ediv_nonneg hk.1 hw.le, ?_⟩
    rw [Int.ediv_lt_iff_lt_mul hw, mul_comm]
    exact hk.2
  have h := apply_filter_with_cell op input output n r (k / input.width) (k % input.width)
    channel hrow hcol
  rw [hdecomp] at h
  exact h

/-- C1: at every border pixel (`row == 0`, `col == 0`, `row == height-1` or
`col == width-1`) the gradient operator returns 0 for every raster and channel,
whatever the samples are; and for a 1×1 raster every cell the gradient filter
writes holds 0, for every run of the row loop: the output buffer of each
channel is the single byte 0. -/
theorem C1_gradient_border_zero :
    (∀ (img : rgb_image) (row col : Int) (channel : Fin 3),
      (row = 0 ∨ col = 0 ∨ row = img.height - 1 ∨ col = img.width - 1) →
        jpegedge.compute_pixel_value img row col channel = 0) ∧
    (∀ (input output : rgb_image) (n : Int) (r : omp_run input n),
      input.height = 1 → input.width = 1 →
        ∀ (row col : Int) (channel : Fin 3),
          0 ≤ row ∧ row < input.height → 0 ≤ col ∧ col < input.width →
            (jpegedge.apply_filter input output n r).RGB channel (row * input.width + col)
              = 0) ∧
    (∀ (w : world) (input : rgb_image) (n : Int) (r : omp_run input n),
      input.height = 1 → input.width = 1 →
        ∀ channel : Fin 3,
          raster_bytes (jpegedge.apply_filter input (create_output_image w input) n r) channel
            = [0]) := by
  refine ⟨fun img row col channel h => ?_, ?_, ?_⟩
  · simp [jpegedge.compute_pixel_value, jpegedge.is_border, h]
  · intro input output n r hh hw row col channel hrow hcol
    unfold jpegedge.apply_filter
    rw [apply_filter_with_cell _ input output n r row col channel hrow hcol]
    have hb : jpegedge.is_border input row col := by
      unfold jpegedge.is_border
      omega
    simp [jpegedge.compute_pixel_value, hb]
  · intro w input n r hh hw channel
    have hd := foldl_body_dims jpegedge.compute_pixel_value input r.order
      (create_output_image w input)
    have h0 := apply_filter_with_offset jpegedge.compute_pixel_value input
      (create_output_image w input) n r channel 0 (by omega) ⟨le_refl 0, by rw [hh, hw]; decide⟩
    have hb : jpegedge.is_border input (0 / input.width) (0 % input.width) := by
      unfold jpegedge.is_border
      left
      simp
    have hv : jpegedge.compute_pixel_value input (0 / input.width) (0 % input.width) channel
        = 0 := by
      unfold jpegedge.compute_pixel_value
      rw [if_pos hb]
    unfold raster_bytes jpegedge.apply_filter
    unfold apply_filter_with at h0 ⊢
    rw [hd.1, hd.2]
    have hsz : ((create_output_image w input).width *
        (create_output_image w input).height).toNat = 1 := by
      show (input.width * input.height).toNat = 1
      rw [hh, hw]
      rfl
    rw [hsz]
    simp only [List.range_succ, List.range_zero, List.nil_append, List.map_cons, List.map_nil,
      Nat.cast_zero]
    rw [h0, hv]
    rfl

/-- C1, at the top-right pixel of a 4×4 raster and on the 1×1 raster. -/
theorem C1_gradient_border_zero_witness :
    jpegedge.compute_pixel_value (corner_raster 0) 0 3 1 = 0 ∧
    (jpegedge.apply_filter unit_raster step_raster 1 (omp_run.sequential unit_raster 0)).RGB 2
      (0 * unit_raster.width + 0) = 0 :=
  ⟨C1_gradient_border_zero.1 (corner_raster 0) 0 3 1 (Or.inl rfl),
    C1_gradient_border_zero.2.1 unit_raster step_raster 1 (omp_run.sequential unit_raster 0)
      rfl rfl 0 0 2 (by decide) (by decide)⟩

theorem int32_of_range (x : Int) (h1 : -2147483648 ≤ x) (h2 : x ≤ 2147483647) :
    int32 x = x := by
  unfold int32
  omega

/-- With `width * height ≤ INT_MAX + 1` no step of the index expression of an
in-range cell `(row+i, col+j)` leaves the range of `int`. -/
theorem jpegedge.index_steps (img : rgb_image) (row col i j : Int)
    (hsize : img.width * img.height ≤ INT_MAX + 1)
    (hr : 0 ≤ row + i ∧ row + i < img.height) (hc : 0 ≤ col + j ∧ col + j < img.width)
    (hcol : 0 ≤ col ∧ col < img.width) :
    int32 (row + i) = row + i ∧
    int32 ((row + i) * img.width) = (row + i) * img.width ∧
    int32 ((row + i) * img.width + col) = (row + i) * img.width + col ∧
    int32 ((row + i) * img.width + col + j) = (row + i) * img.width + col + j ∧
    jpegedge.index img row col i j = (row + i) * img.width + col + j ∧
    img.in_buffer ((row + i) * img.width + col + j) := by
  unfold INT_MAX at hsize
  have hw : 0 < img.width := by omega
  have h0 : 0 ≤ (row + i) * img.width := mul_nonneg hr.1 hw.le
  have h1 : (row + i + 1) * img.width ≤ img.height * img.width :=
    Int.mul_le_mul_of_nonneg_right (by omega) hw.le
  have h2 : (row + i + 1) * img.width = (row + i) * img.width + img.width := by ring
  have h3 : img.height * img.width = img.width * img.height := mul_comm _ _
  have h4 : img.height * 1 ≤ img.height * img.width :=
    Int.mul_le_mul_of_nonneg_left (by omega) (by omega)
  have e1 : int32 (row + i) = row + i := int32_of_range _ (by omega) (by omega)
  have e2 : int32 ((row + i) * img.width) = (row + i) * img.width :=
    int32_of_range _ (by omega) (by omega)
  have e3 : int32 ((row + i) * img.width + col) = (row + i) * img.width + col :=
    int32_of_range _ (by omega) (by omega)
  have e4 : int32 ((row + i) * img.width + col + j) = (row + i) * img.width + col + j :=
    int32_of_range _ (by omega) (by omega)
  refine ⟨e1, e2, e3, e4, ?_, ?_, ?_⟩
  · unfold jpegedge.index
    rw [e1, e2, e3, e4]
  · omega
  · omega

/-- C6 as stated fails: in the 50000×50000 raster the interior pixel
(49998, 1) has `(row - 1) * width = 2499850000 > INT_MAX`, the `int` index
expression overflows, and the nine offsets it yields are negative, outside the
channel buffer. -/
theorem C6_index_overflows_on_huge_raster :
    ¬ (∀ (img : rgb_image) (row col : Int), 0 < img.width → 0 < img.height →
      (0 ≤ row ∧ row < img.height) → (0 ≤ col ∧ col < img.width) →
        ∀ k ∈ jpegedge.reads img row col, img.in_buffer k) ∧
    INT_MAX < (49998 + -1) * huge_raster.width ∧
    jpegedge.reads huge_raster 49998 1 =
      [-1795117296, -1795117295, -1795117294, -1795067296, -1795067295, -1795067294,
        -1795017296, -1795017295, -1795017294] ∧
    (∀ k ∈ jpegedge.reads huge_raster 49998 1, ¬ huge_raster.in_buffer k) := by
  refine ⟨fun h => ?_, by decide, by decide, by decide⟩
  have h1 := h huge_raster 49998 1 (by decide) (by decide) (by decide) (by decide)
    (-1795117296) (by decide)
  exact absurd h1 (by decide)

/-- C6 amended: in a raster with positive dimensions and at most `INT_MAX + 1`
samples per channel (every offset of the buffer is an `int`), at an in-range
pixel, the gradient operator dereferences
nothing at a border pixel and, at any other pixel, exactly the nine offsets
`(row+i)*width + col + j`, `i, j ∈ {-1,0,1}`; no step of the `int` index
expression overflows, each offset is that of the in-range cell `(row+i, col+j)`
and lies inside the `width * height` buffer.  The result depends on the raster
only through its dimensions and the bytes at these offsets. -/
theorem C6_gradient_reads_in_bounds (img : rgb_image) (row col : Int)
    (_hw : 0 < img.width) (_hh : 0 < img.height)
    (hsize : img.width * img.height ≤ INT_MAX + 1)
    (hrow : 0 ≤ row ∧ row < img.height) (hcol : 0 ≤ col ∧ col < img.width) :
    (jpegedge.is_border img row col → jpegedge.reads img row col = []) ∧
    (¬ jpegedge.is_border img row col →
      jpegedge.reads img row col =
        [(row + -1) * img.width + col + -1, (row + -1) * img.width + col + 0,
          (row + -1) * img.width + col + 1, (row + 0) * img.width + col + -1,
          (row + 0) * img.width + col + 0, (row + 0) * img.width + col + 1,
          (row + 1) * img.width + col + -1, (row + 1) * img.width + col + 0,
          (row + 1) * img.width + col + 1] ∧
      ∀ i ∈ ([-1, 0, 1] : List Int), ∀ j ∈ ([-1, 0, 1] : List Int),
        (0 ≤ row + i ∧ row + i < img.height) ∧ (0 ≤ col + j ∧ col + j < img.width) ∧
        (int32 (row + i) = row + i ∧
          int32 ((row + i) * img.width) = (row + i) * img.width ∧
          int32 ((row + i) * img.width + col) = (row + i) * img.width + col ∧
          int32 ((row + i) * img.width + col + j) = (row + i) * img.width + col + j) ∧
        jpegedge.index img row col i j = (row + i) * img.width + col + j ∧
        (row + i) * img.width + col + j = (row + i) * img.width + (col + j) ∧
        img.in_buffer ((row + i) * img.width + col + j)) ∧
    (∀ k ∈ jpegedge.reads img row col, img.in_buffer k) ∧
    (∀ (other : rgb_image) (channel : Fin 3),
      other.height = img.height → other.width = img.width →
      (∀ k ∈ jpegedge.reads img row col, other.RGB channel k = img.RGB channel k) →
      jpegedge.compute_pixel_value other row col channel =
        jpegedge.compute_pixel_value img row col channel) := by
  have cell : ¬ jpegedge.is_border img row col →
      ∀ i ∈ ([-1, 0, 1] : List Int), ∀ j ∈ ([-1, 0, 1] : List Int),
        (0 ≤ row + i ∧ row + i < img.height) ∧ (0 ≤ col + j ∧ col + j < img.width) := by
    intro hb i hi j hj
    unfold jpegedge.is_border at hb
    simp only [List.mem_cons, List.mem_singleton, List.not_mem_nil, or_false] at hi hj
    exact ⟨by omega, by omega⟩
  have steps : ¬ jpegedge.is_border img row col →
      ∀ i ∈ ([-1, 0, 1] : List Int), ∀ j ∈ ([-1, 0, 1] : List Int),
        jpegedge.index img row col i j = (row + i) * img.width + col + j ∧
        img.in_buffer ((row + i) * img.width + col + j) := by
    intro hb i hi j hj
    have hc := cell hb i hi j hj
    have hs := jpegedge.index_steps img row col i j hsize hc.1 hc.2 hcol
    exact ⟨hs.2.2.2.2.1, hs.2.2.2.2.2⟩
  have hreads : ¬ jpegedge.is_border img row col → jpegedge.reads img row col =
      [(row + -1) * img.width + col + -1, (row + -1) * img.width + col + 0,
        (row + -1) * img.width + col + 1, (row + 0) * img.width + col + -1,
        (row + 0) * img.width + col + 0, (row + 0) * img.width + col + 1,
        (row + 1) * img.width + col + -1, (row + 1) * img.width + col + 0,
        (row + 1) * img.width + col + 1] := by
    intro hb
    have s := steps hb
    simp only [jpegedge.reads, hb, if_false, List.flatMap_cons, List.flatMap_nil, List.map_cons,
      List.map_nil, List.append_nil, List.cons_append, List.nil_append]
    rw [(s (-1) (by simp) (-1) (by simp)).1, (s (-1) (by simp) 0 (by simp)).1,
      (s (-1) (by simp) 1 (by simp)).1, (s 0 (by simp) (-1) (by simp)).1,
      (s 0 (by simp) 0 (by simp)).1, (s 0 (by simp) 1 (by simp)).1,
      (s 1 (by simp) (-1) (by simp)).1, (s 1 (by simp) 0 (by simp)).1,
      (s 1 (by simp) 1 (by simp)).1]
  have hin : ∀ k ∈ jpegedge.reads img row col, img.in_buffer k := by
    intro k hk
    by_cases hb : jpegedge.is_border img row col
    · simp [jpegedge.reads, hb] at hk
    · have s := steps hb
      rw [hreads hb] at hk
      simp only [List.mem_cons, List.mem_singleton, List.not_mem_nil, or_false] at hk
      rcases hk with rfl | rfl | rfl | rfl | rfl | rfl | rfl | rfl | rfl
      · exact (s (-1) (by simp) (-1) (by simp)).2
      · exact (s (-1) (by simp) 0 (by simp)).2
      · exact (s (-1) (by simp) 1 (by simp)).2
      · exact (s 0 (by simp) (-1) (by simp)).2
      · exact (s 0 (by simp) 0 (by simp)).2
      · exact (s 0 (by simp) 1 (by simp)).2
      · exact (s 1 (by simp) (-1) (by simp)).2
      · exact (s 1 (by simp) 0 (by simp)).2
      · exact (s 1 (by simp) 1 (by simp)).2
  refine ⟨fun hb => by simp [jpegedge.reads, hb], fun hb => ⟨hreads hb, ?_⟩, hin, ?_⟩
  · intro i hi j hj
    have hc := cell hb i hi j hj
    have hs := jpegedge.index_steps img row col i j hsize hc.1 hc.2 hcol
    exact ⟨hc.1, hc.2, ⟨hs.1, hs.2.1, hs.2.2.1, hs.2.2.2.1⟩, hs.2.2.2.2.1, by ring,
      hs.2.2.2.2.2⟩
  · intro other channel hoh how hagree
    have hbo : jpegedge.is_border other row col ↔ jpegedge.is_border img row col := by
      unfold jpegedge.is_border
      rw [hoh, how]
    by_cases hb : jpegedge.is_border img row col
    · simp [jpegedge.compute_pixel_value, hb, hbo]
    · have hsum : jpegedge.sums other row col channel = jpegedge.sums img row col channel := by
        rw [hreads hb] at hagree
        simp only [jpegedge.sums, jpegedge.offset, List.foldl, how]
        rw [hagree _ (by simp), hagree ((row + -1) * img.width + col + 0) (by simp),
          hagree ((row + -1) * img.width + col + 1) (by simp),
          hagree ((row + 0) * img.width + col + -1) (by simp),
          hagree ((row + 0) * img.width + col + 0) (by simp),
          hagree ((row + 0) * img.width + col + 1) (by simp),
          hagree ((row + 1) * img.width + col + -1) (by simp),
          hagree ((row + 1) * img.width + col + 0) (by simp),
          hagree ((row + 1) * img.width + col + 1) (by simp)]
      simp [jpegedge.compute_pixel_value, hb, hbo, hsum]

/-- C6 amended, at the interior pixel (2, 1) of the 4×4 raster: the nine
offsets read are 4, 5, 6, 8, 9, 10, 12, 13, 14, all below 16. -/
theorem C6_gradient_reads_in_bounds_witness :
    jpegedge.reads (corner_raster 0) 2 1 = [4, 5, 6, 8, 9, 10, 12, 13, 14] ∧
    ∀ k ∈ jpegedge.reads (corner_raster 0) 2 1, (corner_raster 0).in_buffer k :=
  ⟨by decide,
    (C6_gradient_reads_in_bounds (corner_raster 0) 2 1 (by decide) (by decide) (by decide)
      (by decide) (by decide)).2.2.1⟩

theorem corner_raster_value (k0 : Int) (row col : Int) (channel : Fin 3) (a b : Int) (v : Nat)
    (hb : ¬ jpegedge.is_border (corner_raster k0) row col)
    (h1 : spec_S1 (corner_raster k0) row col channel = a)
    (h2 : spec_S2 (corner_raster k0) row col channel = b)
    (hv : v * v ≤ (a * a + b * b).toNat ∧ (a * a + b * b).toNat < (v + 1) * (v + 1)) :
    (jpegedge.compute_pixel_value (corner_raster k0) row col channel).val = max v 70 % 256 := by
  rw [jpegedge.value_interior _ row col channel hb, to_uchar_val, h1, h2,
    (Nat.eq_sqrt.2 hv).symm]

theorem corner_raster_bytes (k0 : Int) (w : world) (n : Int)
    (r : omp_run (corner_raster k0) n) (channel : Fin 3) :
    raster_bytes (jpegedge.apply_filter (corner_raster k0)
        (create_output_image w (corner_raster k0)) n r) channel =
      (List.range 16).map fun (k : Nat) =>
        (jpegedge.compute_pixel_value (corner_raster k0) ((k : Int) / 4) ((k : Int) % 4)
          channel).val := by
  have hd := foldl_body_dims jpegedge.compute_pixel_value (corner_raster k0) r.order
    (create_output_image w (corner_raster k0))
  unfold raster_bytes jpegedge.apply_filter apply_filter_with
  rw [hd.1, hd.2]
  show (List.range 16).map _ = _
  apply List.map_congr_left
  intro k hk
  rw [List.mem_range] at hk
  have h := apply_filter_with_offset jpegedge.compute_pixel_value (corner_raster k0)
    (create_output_image w (corner_raster k0)) n r channel (k : Int)
    (by show (0 : Int) < 4; decide) ⟨by omega, by show (k : Int) < 4 * 4; omega⟩
  unfold apply_filter_with at h
  rw [h]
  rfl

theorem corner_raster_cells (k0 : Int) (hk0 : k0 ∈ ([0, 3, 12, 15] : List Int))
    (channel : Fin 3) (k : Nat) (hk : k < 16) :
    (jpegedge.compute_pixel_value (corner_raster k0) ((k : Int) / 4) ((k : Int) % 4)
      channel).val =
      if (k : Int) / 4 = 0 ∨ (k : Int) % 4 = 0 ∨ (k : Int) / 4 = 3 ∨ (k : Int) % 4 = 3 then 0
      else if ((k : Int) / 4 - 1) * 12 + ((k : Int) % 4 - 1) * 3 = k0 then 141 else 70 := by
  simp only [List.mem_cons, List.mem_singleton, List.not_mem_nil, or_false] at hk0
  rcases hk0 with rfl | rfl | rfl | rfl <;> fin_cases channel <;> interval_cases k <;>
    first
    | decide
    | exact corner_raster_value _ _ _ _ 100 100 141 (by decide) (by decide) (by decide)
        (by decide)
    | exact corner_raster_value _ _ _ _ (-100) 100 141 (by decide) (by decide) (by decide)
        (by decide)
    | exact corner_raster_value _ _ _ _ 100 (-100) 141 (by decide) (by decide) (by decide)
        (by decide)
    | exact corner_raster_value _ _ _ _ (-100) (-100) 141 (by decide) (by decide) (by decide)
        (by decide)

/-- C7: for the 4×4 raster holding 100 everywhere except 0 at one corner
(offset 0, 3, 12 or 15), in every channel and for every run of the row loop,
the gradient filter leaves 0 at the twelve border pixels, 141 =
`floor(sqrt 20000)` at the interior pixel whose 3×3 block contains the corner,
where `|S1| = |S2| = 100`, and 70 at the other three interior pixels, where
`S1 = S2 = 0`. -/
theorem C7_corner_scenario (w : world) (n : Int) (channel : Fin 3) :
    (∀ r : omp_run (corner_raster 0) n,
      raster_bytes (jpegedge.apply_filter (corner_raster 0)
        (create_output_image w (corner_raster 0)) n r) channel =
        [0, 0, 0, 0, 0, 141, 70, 0, 0, 70, 70, 0, 0, 0, 0, 0]) ∧
    (∀ r : omp_run (corner_raster 3) n,
      raster_bytes (jpegedge.apply_filter (corner_raster 3)
        (create_output_image w (corner_raster 3)) n r) channel =
        [0, 0, 0, 0, 0, 70, 141, 0, 0, 70, 70, 0, 0, 0, 0, 0]) ∧
    (∀ r : omp_run (corner_raster 12) n,
      raster_bytes (jpegedge.apply_filter (corner_raster 12)
        (create_output_image w (corner_raster 12)) n r) channel =
        [0, 0, 0, 0, 0, 70, 70, 0, 0, 141, 70, 0, 0, 0, 0, 0]) ∧
    (∀ r : omp_run (corner_raster 15) n,
      raster_bytes (jpegedge.apply_filter (corner_raster 15)
        (create_output_image w (corner_raster 15)) n r) channel =
        [0, 0, 0, 0, 0, 70, 70, 0, 0, 70, 141, 0, 0, 0, 0, 0]) ∧
    jpegedge.sums (corner_raster 0) 1 1 channel = (100, 100) ∧
    jpegedge.sums (corner_raster 3) 1 2 channel = (-100, 100) ∧
    jpegedge.sums (corner_raster 12) 2 1 channel = (100, -100) ∧
    jpegedge.sums (corner_raster 15) 2 2 channel = (-100, -100) ∧
    (∀ k0 ∈ ([0, 3, 12, 15] : List Int), ∀ row ∈ ([1, 2] : List Int),
      ∀ col ∈ ([1, 2] : List Int), (row - 1) * 12 + (col - 1) * 3 ≠ k0 →
        jpegedge.sums (corner_raster k0) row col channel = (0, 0)) ∧
    Nat.sqrt 20000 = 141 := by
  have cells : ∀ (k0 : Int), k0 ∈ ([0, 3, 12, 15] : List Int) →
      ∀ r : omp_run (corner_raster k0) n,
      raster_bytes (jpegedge.apply_filter (corner_raster k0)
        (create_output_image w (corner_raster k0)) n r) channel =
      (List.range 16).map fun (k : Nat) =>
        if (k : Int) / 4 = 0 ∨ (k : Int) % 4 = 0 ∨ (k : Int) / 4 = 3 ∨ (k : Int) % 4 = 3
        then 0
        else if ((k : Int) / 4 - 1) * 12 + ((k : Int) % 4 - 1) * 3 = k0 then 141 else 70 := by
    intro k0 hk0 r
    rw [corner_raster_bytes]
    apply List.map_congr_left
    intro k hk
    exact corner_raster_cells k0 hk0 channel k (List.mem_range.1 hk)
  refine ⟨fun r => ?_, fun r => ?_, fun r => ?_, fun r => ?_, ?_, ?_, ?_, ?_, ?_, ?_⟩
  · rw [cells 0 (by decide) r]; decide
  · rw [cells 3 (by decide) r]; decide
  · rw [cells 12 (by decide) r]; decide
  · rw [cells 15 (by decide) r]; decide
  · fin_cases channel <;> decide
  · fin_cases channel <;> decide
  · fin_cases channel <;> decide
  · fin_cases channel <;> decide
  · fin_cases channel <;> decide
  · exact (Nat.eq_sqrt.2 ⟨by decide, by decide⟩).symm

/-- C7, the sums at a pixel away from the zero corner. -/
theorem C7_corner_scenario_witness :
    jpegedge.sums (corner_raster 0) 1 2 0 = (0, 0) :=
  (C7_corner_scenario blank_world 1 0).2.2.2.2.2.2.2.2.1 0 (by decide) 1 (by decide) 2
    (by decide) (by decide)

/-! ### Row loop nest -/

theorem length_filter_eq_of_nodup {α : Type} [DecidableEq α] (l : List α) (a : α)
    (hl : l.Nodup) (ha : a ∈ l) : (l.filter fun t => t = a).length = 1 := by
  induction l with
  | nil => simp at ha
  | cons b l ih =>
    rw [List.nodup_cons] at hl
    by_cases hab : b = a
    · subst hab
      have hnil : l.filter (fun t => decide (t = b)) = [] := by
        rw [List.filter_eq_nil_iff]
        intro x hx hxb
        have : x = b := by simpa using hxb
        exact hl.1 (this ▸ hx)
      simp [List.filter_cons, hnil]
    · have hmem : a ∈ l := by
        rcases List.mem_cons.1 ha with h | h
        · exact absurd h.symm hab
        · exact h
      simp [List.filter_cons, hab, ih hl.2 hmem]

/-- The gradient filter: every run of the row loop (any worker count, any
assignment of rows to workers, any interleaving) leaves at offset
`row * width + col` of channel `channel` the value
`compute_pixel_value(input, row, col, channel)`, for every in-range cell, and
writes that cell exactly once; so two runs give equal output rasters, whatever
their worker counts. -/
theorem jpegedge.apply_filter_schedule_independent (input output : rgb_image)
    (n : Int) (r : omp_run input n) :
    (∀ (row col : Int) (channel : Fin 3),
      0 ≤ row ∧ row < input.height → 0 ≤ col ∧ col < input.width →
        (jpegedge.apply_filter input output n r).RGB channel (row * input.width + col) =
          jpegedge.compute_pixel_value input row col channel ∧
        (r.writes.filter fun t => t = (channel, row * input.width + col)).length = 1) ∧
    (∀ (m : Int) (q : omp_run input m),
      jpegedge.apply_filter input output n r = jpegedge.apply_filter input output m q) := by
  refine ⟨fun row col channel hrow hcol => ⟨?_, ?_⟩, fun m q => ?_⟩
  · exact apply_filter_with_cell _ input output n r row col channel hrow hcol
  · refine length_filter_eq_of_nodup _ _ r.nodup_writes ?_
    refine List.mem_map.2 ⟨(row, col, channel), ?_, rfl⟩
    exact r.order_perm.mem_iff.2 (mem_iterations.2 ⟨hrow, hcol⟩)
  · exact apply_filter_with_run_irrelevant _ input output n m r q

/-! ### Command line -/

theorem leading_digits_of_not_digit (c : Char) (t : List Char) (h : isdigit c = false) :
    leading_digits (c :: t) = 0 := by
  simp [leading_digits, List.takeWhile_cons, h]

theorem atoi_of_not_starts_numeral (s : String) (h : starts_numeral s = false) :
    atoi s = 0 := by
  have hv : leading_value s.toList = 0 := by
    unfold starts_numeral at h
    unfold leading_value
    cases hd : s.toList.dropWhile isspace with
    | nil => simp
    | cons c t =>
      rw [hd] at h
      simp only at h ⊢
      by_cases hsign : c.toNat = 45 ∨ c.toNat = 43
      · rw [if_pos hsign] at h
        have ht : leading_digits t = 0 := by
          cases t with
          | nil => simp [leading_digits]
          | cons d t2 => exact leading_digits_of_not_digit d t2 h
        rcases hsign with h45 | h43
        · simp [h45, ht]
        · have h45 : c.toNat ≠ 45 := by omega
          simp [h45, h43, ht]
      · rw [if_neg hsign] at h
        have h45 : c.toNat ≠ 45 := fun e => hsign (Or.inl e)
        have h43 : c.toNat ≠ 43 := fun e => hsign (Or.inr e)
        simp [h45, h43, leading_digits_of_not_digit c t h]
  unfold atoi strtol
  rw [hv]
  decide

theorem main_with_rejects
    (filter : (input : rgb_image) → rgb_image → (n : Int) → omp_run input n → rgb_image)
    (w : world) (argv : List String) (h : argv.length ≠ 4 ∨ atoi (argv.getD 3 "") ≤ 0) :
    (main_with filter w argv).exit_code = 1 ∧
      (main_with filter w argv).trace.all (fun a => !a.touches_files) = true := by
  unfold main_with
  by_cases hlen : argv.length ≠ 4
  · rw [if_pos hlen]
    exact ⟨rfl, rfl⟩
  · rw [if_neg hlen]
    have hle : atoi (argv.getD 3 "") ≤ 0 := by
      rcases h with h | h
      · exact absurd h hlen
      · exact h
    rw [dif_pos hle]
    exact ⟨rfl, rfl⟩

theorem main_with_accepts
    (filter : (input : rgb_image) → rgb_image → (n : Int) → omp_run input n → rgb_image)
    (w : world) (argv : List String) (hlen : argv.length = 4)
    (hpos : 0 < atoi (argv.getD 3 "")) :
    action.fopen_read (argv.getD 1 "") ∈ (main_with filter w argv).trace := by
  unfold main_with
  rw [if_neg (not_not.2 hlen)]
  simp only
  rw [dif_neg (not_le.2 hpos)]
  cases hdec : w.decode (argv.getD 1 "") with
  | none => simp
  | some input =>
    simp only
    cases hwr : w.writable (argv.getD 2 "") <;> simp

theorem atoi_of_fits (s : String)
    (h : -2147483648 ≤ leading_value s.toList ∧ leading_value s.toList ≤ 2147483647) :
    atoi s = leading_value s.toList := by
  unfold atoi strtol
  have e : max (-(2 ^ 63)) (min (leading_value s.toList) (2 ^ 63 - 1)) =
      leading_value s.toList := by
    rw [min_eq_left (by omega), max_eq_right (by omega)]
  rw [e]
  exact int32_of_range _ h.1 h.2

/-- C8 as stated fails: with the non-numeric third argument `8x` both programs
pass the validation (`atoi` reads the leading `8`), decode the input, write the
output file and end with exit code 0. -/
theorem C8_non_numeric_accepted :
    ¬ (∀ (R : rounding) (w : world) (argv : List String),
      argv.length = 4 → numeric (argv.getD 3 "") = false →
        (jpegedge.main w argv).exit_code = 1 ∧
        (jpegedge.main w argv).trace.all (fun a => !a.creates_output) = true ∧
        (jpegfunk1.main R w argv).exit_code = 1 ∧
        (jpegfunk1.main R w argv).trace.all (fun a => !a.creates_output) = true) ∧
    numeric "8x" = false ∧ atoi "8x" = 8 ∧
    (jpegedge.main open_world ["jpegedge", "in.jpg", "out.jpg", "8x"]).exit_code = 0 ∧
    (jpegfunk1.main exact_arithmetic open_world
      ["jpegfunk1", "in.jpg", "out.jpg", "8x"]).exit_code = 0 ∧
    (jpegedge.main open_world ["jpegedge", "in.jpg", "out.jpg", "8x"]).trace.any
      (fun a => a.creates_output) = true := by
  refine ⟨fun h => ?_, by decide, by decide, by decide, by decide, by decide⟩
  have h1 := (h exact_arithmetic open_world ["jpegedge", "in.jpg", "out.jpg", "8x"]
    (by decide) (by decide)).1
  exact absurd h1 (by decide)

/-- C8 amended: both programs exit with code 1, before decoding the input or
opening the output file, when the argument count is not 4 or when `atoi` of the
third argument is not positive, and open the input file otherwise.  Here `atoi`
is `(int) strtol`: the number the argument starts with (optional white space,
optional sign, leading decimal digits; 0 when there are none), saturated to 64
bits and reduced to its low 32 bits; it is that number whenever the number
fits a 32-bit `int`, while `-4294967288` is read as 8 and accepted.  Every third
argument that does not start, after white space and an optional sign, with a
digit is read as 0 and leads to exit code 1 and no output file. -/
theorem C8_cli_validation (R : rounding) (w : world) (argv : List String) :
    (argv.length ≠ 4 ∨ atoi (argv.getD 3 "") ≤ 0 →
      ((jpegedge.main w argv).exit_code = 1 ∧
        (jpegedge.main w argv).trace.all (fun a => !a.touches_files) = true) ∧
      ((jpegfunk1.main R w argv).exit_code = 1 ∧
        (jpegfunk1.main R w argv).trace.all (fun a => !a.touches_files) = true)) ∧
    (argv.length = 4 → 0 < atoi (argv.getD 3 "") →
      action.fopen_read (argv.getD 1 "") ∈ (jpegedge.main w argv).trace ∧
      action.fopen_read (argv.getD 1 "") ∈ (jpegfunk1.main R w argv).trace) ∧
    atoi (argv.getD 3 "") =
      int32 (max (-(2 ^ 63)) (min (leading_value (argv.getD 3 "").toList) (2 ^ 63 - 1))) ∧
    (-2147483648 ≤ leading_value (argv.getD 3 "").toList ∧
        leading_value (argv.getD 3 "").toList ≤ 2147483647 →
      atoi (argv.getD 3 "") = leading_value (argv.getD 3 "").toList) ∧
    (starts_numeral (argv.getD 3 "") = false →
      atoi (argv.getD 3 "") = 0 ∧
      ((jpegedge.main w argv).exit_code = 1 ∧
        (jpegedge.main w argv).trace.all (fun a => !a.touches_files) = true) ∧
      ((jpegfunk1.main R w argv).exit_code = 1 ∧
        (jpegfunk1.main R w argv).trace.all (fun a => !a.touches_files) = true)) ∧
    (leading_value "-4294967288".toList = -4294967288 ∧ atoi "-4294967288" = 8 ∧
      (jpegedge.main open_world ["jpegedge", "in.jpg", "out.jpg", "-4294967288"]).exit_code
        = 0 ∧
      (jpegedge.main open_world ["jpegedge", "in.jpg", "out.jpg", "-4294967288"]).trace.any
        (fun a => a.creates_output) = true) := by
  refine ⟨fun h => ⟨main_with_rejects _ w argv h, main_with_rejects _ w argv h⟩,
    fun hlen hpos => ⟨main_with_accepts _ w argv hlen hpos, main_with_accepts _ w argv hlen hpos⟩,
    rfl, atoi_of_fits _, fun h => ?_, by decide, by decide, by decide, by decide⟩
  have h0 := atoi_of_not_starts_numeral _ h
  have hle : argv.length ≠ 4 ∨ atoi (argv.getD 3 "") ≤ 0 := Or.inr (by rw [h0])
  exact ⟨h0, main_with_rejects _ w argv hle, main_with_rejects _ w argv hle⟩

/-- C8 amended, for the third arguments `abc` (rejected) and `-3` (read as -3,
rejected) in a world where every file can be read and written. -/
theorem C8_cli_validation_witness :
    (atoi "abc" = 0 ∧
      ((jpegedge.main open_world ["jpegedge", "in.jpg", "out.jpg", "abc"]).exit_code = 1 ∧
        (jpegedge.main open_world ["jpegedge", "in.jpg", "out.jpg", "abc"]).trace.all
          (fun a => !a.touches_files) = true) ∧
      ((jpegfunk1.main exact_arithmetic open_world
          ["jpegedge", "in.jpg", "out.jpg", "abc"]).exit_code = 1 ∧
        (jpegfunk1.main exact_arithmetic open_world
          ["jpegedge", "in.jpg", "out.jpg", "abc"]).trace.all
            (fun a => !a.touches_files) = true)) ∧
    atoi "-3" = leading_value "-3".toList ∧
    (jpegedge.main open_world ["jpegedge", "in.jpg", "out.jpg", "-3"]).exit_code = 1 :=
  ⟨(C8_cli_validation exact_arithmetic open_world
      ["jpegedge", "in.jpg", "out.jpg", "abc"]).2.2.2.2.1 (by decide),
    (C8_cli_validation exact_arithmetic open_world
      ["jpegedge", "in.jpg", "out.jpg", "-3"]).2.2.2.1 (by decide),
    ((C8_cli_validation exact_arithmetic open_world
      ["jpegedge", "in.jpg", "out.jpg", "-3"]).1 (Or.inr (by decide))).1.1⟩

/-! ### Rounding -/

theorem rounding.fl_int (R : rounding) (n : Int) : R.fl (n : ℚ) = (n : ℚ) := by
  have h := R.exact_quarter (4 * n)
  have e : (((4 * n : Int) : ℚ)) / 4 = (n : ℚ) := by
    push_cast
    ring
  rwa [e] at h

theorem rounding.fl_le_int (R : rounding) (x : ℚ) (n : Int) (h : x ≤ n) : R.fl x ≤ n := by
  have := R.order_preserving h
  rwa [R.fl_int] at this

theorem rounding.int_le_fl (R : rounding) (x : ℚ) (n : Int) (h : (n : ℚ) ≤ x) :
    (n : ℚ) ≤ R.fl x := by
  have := R.order_preserving h
  rwa [R.fl_int] at this

/-! ### Rank operator -/

theorem jpegfunk1.MAX_eq_max (x y : ℚ) : jpegfunk1.MAX x y = max x y := by
  unfold jpegfunk1.MAX
  split_ifs with h
  · exact (max_eq_left h.le).symm
  · exact (max_eq_right (not_lt.1 h)).symm

theorem jpegfunk1.MIN_eq_min (x y : ℚ) : jpegfunk1.MIN x y = min x y := by
  unfold jpegfunk1.MIN
  split_ifs with h
  · exact (min_eq_left h.le).symm
  · exact (min_eq_right (not_lt.1 h)).symm

theorem jpegfunk1.to_int_of_nonneg (x : ℚ) (h : 0 ≤ x) : jpegfunk1.to_int x = ⌊x⌋ := by
  simp [jpegfunk1.to_int, h]

theorem jpegfunk1.one_le_radius (R : rounding) (img : rgb_image) (row col : Int) :
    1 ≤ jpegfunk1.radius R img row col := by
  unfold jpegfunk1.radius
  rw [jpegfunk1.MAX_eq_max]
  exact le_max_left _ _

/-- The rounded difference `x - radius` stays at or below `x - 1`. -/
theorem jpegfunk1.fl_sub_radius_le (R : rounding) (img : rgb_image) (row col x : Int) :
    R.fl ((x : ℚ) - jpegfunk1.radius R img row col) ≤ ((x - 1 : Int) : ℚ) := by
  refine R.fl_le_int _ _ ?_
  have h1 := jpegfunk1.one_le_radius R img row col
  push_cast
  linarith

/-- The rounded sum `x + radius` stays at or above `x + 1`. -/
theorem jpegfunk1.le_fl_add_radius (R : rounding) (img : rgb_image) (row col x : Int) :
    ((x + 1 : Int) : ℚ) ≤ R.fl ((x : ℚ) + jpegfunk1.radius R img row col) := by
  refine R.int_le_fl _ _ ?_
  have h1 := jpegfunk1.one_le_radius R img row col
  push_cast
  linarith

theorem jpegfunk1.row_lbound_eq (R : rounding) (img : rgb_image) (row col : Int) :
    jpegfunk1.row_lbound R img row col =
      ⌊max 0 (R.fl ((row : ℚ) - jpegfunk1.radius R img row col))⌋ := by
  unfold jpegfunk1.row_lbound
  rw [jpegfunk1.MAX_eq_max, jpegfunk1.to_int_of_nonneg _ (le_max_left _ _)]

theorem jpegfunk1.col_lbound_eq (R : rounding) (img : rgb_image) (row col : Int) :
    jpegfunk1.col_lbound R img row col =
      ⌊max 0 (R.fl ((col : ℚ) - jpegfunk1.radius R img row col))⌋ := by
  unfold jpegfunk1.col_lbound
  rw [jpegfunk1.MAX_eq_max, jpegfunk1.to_int_of_nonneg _ (le_max_left _ _)]

theorem jpegfunk1.row_ubound_eq (R : rounding) (img : rgb_image) (row col : Int)
    (hh : 0 ≤ img.height) (hrow : 0 ≤ row) :
    jpegfunk1.row_ubound R img row col =
      ⌊min (img.height : ℚ) (R.fl ((row : ℚ) + jpegfunk1.radius R img row col))⌋ := by
  unfold jpegfunk1.row_ubound
  rw [jpegfunk1.MIN_eq_min]
  refine jpegfunk1.to_int_of_nonneg _ (le_min ?_ ?_)
  · exact_mod_cast hh
  · have h1 := jpegfunk1.le_fl_add_radius R img row col row
    have h2 : (0 : ℚ) ≤ ((row + 1 : Int) : ℚ) := by exact_mod_cast (by omega : 0 ≤ row + 1)
    linarith

theorem jpegfunk1.col_ubound_eq (R : rounding) (img : rgb_image) (row col : Int)
    (hw : 0 ≤ img.width) (hcol : 0 ≤ col) :
    jpegfunk1.col_ubound R img row col =
      ⌊min (img.width : ℚ) (R.fl ((col : ℚ) + jpegfunk1.radius R img row col))⌋ := by
  unfold jpegfunk1.col_ubound
  rw [jpegfunk1.MIN_eq_min]
  refine jpegfunk1.to_int_of_nonneg _ (le_min ?_ ?_)
  · exact_mod_cast hw
  · have h1 := jpegfunk1.le_fl_add_radius R img row col col
    have h2 : (0 : ℚ) ≤ ((col + 1 : Int) : ℚ) := by exact_mod_cast (by omega : 0 ≤ col + 1)
    linarith

/-- The lower window bound `⌊max 0 y⌋` of a coordinate `x ≥ 0`, for `y ≤ x - 1`,
lies in `[0, x]`. -/
theorem floor_lbound_range (x : Int) (y : ℚ) (hx : 0 ≤ x) (hy : y ≤ ((x - 1 : Int) : ℚ)) :
    0 ≤ ⌊max 0 y⌋ ∧ ⌊max 0 y⌋ ≤ x := by
  refine ⟨Int.floor_nonneg.2 (le_max_left _ _), ?_⟩
  have hx0 : (0 : ℚ) ≤ x := by exact_mod_cast hx
  have hy2 : y ≤ (x : ℚ) := by
    push_cast at hy
    linarith
  have h2 := Int.floor_mono (max_le hx0 hy2)
  rwa [Int.floor_intCast] at h2

/-- The upper window bound `⌊min size y⌋` of a coordinate `x < size`, for
`x + 1 ≤ y`, lies in `[x + 1, size]`. -/
theorem floor_ubound_range (x size : Int) (y : ℚ) (hx : x < size)
    (hy : ((x + 1 : Int) : ℚ) ≤ y) :
    x + 1 ≤ ⌊min (size : ℚ) y⌋ ∧ ⌊min (size : ℚ) y⌋ ≤ size := by
  constructor
  · rw [Int.le_floor]
    refine le_min ?_ hy
    exact_mod_cast hx
  · have h2 := Int.floor_mono (min_le_left (size : ℚ) y)
    rwa [Int.floor_intCast] at h2

theorem length_cells (xs ys : List Int) :
    (xs.flatMap fun i => ys.map fun j => (i, j)).length = xs.length * ys.length := by
  induction xs with
  | nil => simp
  | cons a xs ih =>
    rw [List.flatMap_cons, List.length_append, ih, List.length_map, List.length_cons]
    ring

theorem jpegfunk1.mem_window (R : rounding) (img : rgb_image) (row col i j : Int) :
    (i, j) ∈ jpegfunk1.window R img row col ↔
      (jpegfunk1.row_lbound R img row col ≤ i ∧ i ≤ jpegfunk1.row_ubound R img row col) ∧
      (jpegfunk1.col_lbound R img row col ≤ j ∧ j ≤ jpegfunk1.col_ubound R img row col) := by
  simp only [jpegfunk1.window, List.mem_flatMap, List.mem_map, mem_int_range, Prod.mk.injEq]
  constructor
  · rintro ⟨a, ha, b, hb, rfl, rfl⟩
    exact ⟨⟨ha.1, by omega⟩, hb.1, by omega⟩
  · rintro ⟨hi, hj⟩
    exact ⟨i, ⟨hi.1, by omega⟩, j, ⟨hj.1, by omega⟩, rfl, rfl⟩

theorem jpegfunk1.nodup_window (R : rounding) (img : rgb_image) (row col : Int) :
    (jpegfunk1.window R img row col).Nodup := by
  unfold jpegfunk1.window
  rw [List.nodup_flatMap]
  refine ⟨fun i _ => ?_, ?_⟩
  · refine (nodup_int_range _ _).map ?_
    intro a b h
    simpa using h
  · refine (nodup_int_range _ _).imp ?_
    intro a b hab
    simp only [Function.onFun, List.disjoint_left, List.mem_map]
    rintro x ⟨c1, _, rfl⟩ ⟨c2, _, h⟩
    simp only [Prod.mk.injEq] at h
    exact hab h.1.symm

theorem jpegfunk1.length_window (R : rounding) (img : rgb_image) (row col : Int)
    (hr : jpegfunk1.row_lbound R img row col ≤ jpegfunk1.row_ubound R img row col)
    (hc : jpegfunk1.col_lbound R img row col ≤ jpegfunk1.col_ubound R img row col) :
    ((jpegfunk1.window R img row col).length : Int) = jpegfunk1.num_values R img row col := by
  unfold jpegfunk1.window jpegfunk1.num_values
  rw [length_cells, length_int_range, length_int_range]
  push_cast
  rw [Int.toNat_of_nonneg (by omega), Int.toNat_of_nonneg (by omega)]
  ring

theorem jpegfunk1.length_collect (R : rounding) (img : rgb_image) (row col : Int)
    (channel : Fin 3) :
    (jpegfunk1.collect R img row col channel).length =
      (jpegfunk1.window R img row col).length := by
  simp [jpegfunk1.collect, jpegfunk1.reads]

/-- The window bounds of an in-range pixel. -/
theorem jpegfunk1.bounds_in_range (R : rounding) (img : rgb_image) (row col : Int)
    (hrow : 0 ≤ row ∧ row < img.height) (hcol : 0 ≤ col ∧ col < img.width) :
    (0 ≤ jpegfunk1.row_lbound R img row col ∧ jpegfunk1.row_lbound R img row col ≤ row) ∧
    (row + 1 ≤ jpegfunk1.row_ubound R img row col ∧
      jpegfunk1.row_ubound R img row col ≤ img.height) ∧
    (0 ≤ jpegfunk1.col_lbound R img row col ∧ jpegfunk1.col_lbound R img row col ≤ col) ∧
    (col + 1 ≤ jpegfunk1.col_ubound R img row col ∧
      jpegfunk1.col_ubound R img row col ≤ img.width) := by
  rw [jpegfunk1.row_lbound_eq, jpegfunk1.col_lbound_eq,
    jpegfunk1.row_ubound_eq R img row col (by omega) hrow.1,
    jpegfunk1.col_ubound_eq R img row col (by omega) hcol.1]
  exact ⟨floor_lbound_range row _ hrow.1 (jpegfunk1.fl_sub_radius_le R img row col row),
    floor_ubound_range row _ _ hrow.2 (jpegfunk1.le_fl_add_radius R img row col row),
    floor_lbound_range col _ hcol.1 (jpegfunk1.fl_sub_radius_le R img row col col),
    floor_ubound_range col _ _ hcol.2 (jpegfunk1.le_fl_add_radius R img row col col)⟩

theorem jpegfunk1.sorted_qsort (values : List uchar) :
    (jpegfunk1.qsort values).Sorted (fun x y => x ≤ y) :=
  List.sorted_insertionSort _ values

theorem jpegfunk1.perm_qsort (values : List uchar) : (jpegfunk1.qsort values).Perm values :=
  List.perm_insertionSort _ values

theorem jpegfunk1.length_qsort (values : List uchar) :
    (jpegfunk1.qsort values).length = values.length :=
  (jpegfunk1.perm_qsort values).length_eq

/-- The three order statistics read by `funky`, for a buffer of the declared size. -/
theorem jpegfunk1.order_statistics (R : rounding) (values : List uchar) (hne : values ≠ []) :
    ∃ lo mid hi : uchar,
      (jpegfunk1.qsort values)[0]? = some lo ∧
      (jpegfunk1.qsort values)[values.length / 2]? = some mid ∧
      (jpegfunk1.qsort values)[values.length - 1]? = some hi ∧
      lo ≤ mid ∧ mid ≤ hi ∧
      jpegfunk1.funky R values (values.length : Int) =
        jpegfunk1.MAX 0 (R.fl (R.fl ((hi.val : ℚ) - R.fl ((mid.val : ℚ) / 2)) +
          R.fl ((lo.val : ℚ) / 4))) := by
  have hlen := jpegfunk1.length_qsort values
  have hpos : 0 < values.length := List.length_pos.2 hne
  have h0 : 0 < (jpegfunk1.qsort values).length := by omega
  have hm : values.length / 2 < (jpegfunk1.qsort values).length := by omega
  have hl : values.length - 1 < (jpegfunk1.qsort values).length := by omega
  have hs := jpegfunk1.sorted_qsort values
  refine ⟨(jpegfunk1.qsort values)[0], (jpegfunk1.qsort values)[values.length / 2],
    (jpegfunk1.qsort values)[values.length - 1], List.getElem?_eq_getElem h0,
    List.getElem?_eq_getElem hm, List.getElem?_eq_getElem hl, ?_, ?_, ?_⟩
  · exact hs.rel_get_of_le (a := ⟨0, h0⟩) (b := ⟨values.length / 2, hm⟩) (Nat.zero_le _)
  · exact hs.rel_get_of_le (a := ⟨values.length / 2, hm⟩) (b := ⟨values.length - 1, hl⟩)
      (by show values.length / 2 ≤ values.length - 1; omega)
  · unfold jpegfunk1.funky
    have e1 : ((values.length : Int) - 1).toNat = values.length - 1 := by omega
    have e2 : (Int.tdiv (values.length : Int) 2).toNat = values.length / 2 := by
      rw [Int.tdiv_eq_ediv (by omega) (by omega)]
      omega
    simp only [e1, e2]
    rw [List.getD_eq_getElem _ _ h0, List.getD_eq_getElem _ _ hm, List.getD_eq_getElem _ _ hl]

/-- No operation of `hi - mid/2.0 + lo/4.0` on bytes has a rounding error. -/
theorem jpegfunk1.funky_exact (R : rounding) (lo mid hi : Nat) :
    R.fl (R.fl ((hi : ℚ) - R.fl ((mid : ℚ) / 2)) + R.fl ((lo : ℚ) / 4)) =
      (hi : ℚ) - (mid : ℚ) / 2 + (lo : ℚ) / 4 := by
  have e1 : (mid : ℚ) / 2 = ((2 * (mid : Int) : Int) : ℚ) / 4 := by
    push_cast
    ring
  have e2 : (hi : ℚ) - ((2 * (mid : Int) : Int) : ℚ) / 4 =
      ((4 * (hi : Int) - 2 * (mid : Int) : Int) : ℚ) / 4 := by
    push_cast
    ring
  have e3 : (lo : ℚ) / 4 = (((lo : Int) : Int) : ℚ) / 4 := by
    rw [Int.cast_natCast]
  have e4 : ((4 * (hi : Int) - 2 * (mid : Int) : Int) : ℚ) / 4 + (((lo : Int) : Int) : ℚ) / 4 =
      ((4 * (hi : Int) - 2 * (mid : Int) + (lo : Int) : Int) : ℚ) / 4 := by
    push_cast
    ring
  rw [e1, R.exact_quarter, e2, R.exact_quarter, e3, R.exact_quarter, e4, R.exact_quarter]

/-- The arithmetic of `funky` on three ordered bytes. -/
theorem jpegfunk1.funky_arith (lo mid hi : Nat) (h1 : lo ≤ mid) (h2 : mid ≤ hi)
    (h3 : hi ≤ 255) :
    ((hi : ℚ) / 2 + (lo : ℚ) / 4 ≤ (hi : ℚ) - (mid : ℚ) / 2 + (lo : ℚ) / 4 ∧
      (hi : ℚ) - (mid : ℚ) / 2 + (lo : ℚ) / 4 ≤ (hi : ℚ)) ∧
    jpegfunk1.MAX 0 ((hi : ℚ) - (mid : ℚ) / 2 + (lo : ℚ) / 4) =
      (hi : ℚ) - (mid : ℚ) / 2 + (lo : ℚ) / 4 ∧
    jpegfunk1.to_int ((hi : ℚ) - (mid : ℚ) / 2 + (lo : ℚ) / 4) =
      (4 * (hi : Int) - 2 * (mid : Int) + (lo : Int)) / 4 ∧
    ((jpegfunk1.uchar_of_double ((hi : ℚ) - (mid : ℚ) / 2 + (lo : ℚ) / 4)).val : Int) =
      (4 * (hi : Int) - 2 * (mid : Int) + (lo : Int)) / 4 := by
  have q1 : (lo : ℚ) ≤ mid := by exact_mod_cast h1
  have q2 : (mid : ℚ) ≤ hi := by exact_mod_cast h2
  have q0 : (0 : ℚ) ≤ lo := by positivity
  have hnn : (0 : ℚ) ≤ (hi : ℚ) - (mid : ℚ) / 2 + (lo : ℚ) / 4 := by linarith
  have hfloor : jpegfunk1.to_int ((hi : ℚ) - (mid : ℚ) / 2 + (lo : ℚ) / 4) =
      (4 * (hi : Int) - 2 * (mid : Int) + (lo : Int)) / 4 := by
    rw [jpegfunk1.to_int_of_nonneg _ hnn]
    have e : (hi : ℚ) - (mid : ℚ) / 2 + (lo : ℚ) / 4 =
        ((4 * (hi : Int) - 2 * (mid : Int) + (lo : Int) : Int) : ℚ) / ((4 : ℕ) : ℚ) := by
      push_cast
      ring
    rw [e, Rat.floor_intCast_div_natCast]
    rfl
  refine ⟨⟨by linarith, by linarith⟩, ?_, hfloor, ?_⟩
  · rw [jpegfunk1.MAX_eq_max]
    exact max_eq_right hnn
  · unfold jpegfunk1.uchar_of_double
    rw [to_uchar_val, hfloor]
    omega

theorem jpegfunk1.uchar_of_double_val (x : ℚ) (hx : 0 ≤ x) :
    ((jpegfunk1.uchar_of_double x).val : Int) = ⌊x⌋ % 256 := by
  unfold jpegfunk1.uchar_of_double
  rw [to_uchar_val, jpegfunk1.to_int_of_nonneg x hx]
  omega

theorem jpegfunk1.num_values_eq_length (R : rounding) (img : rgb_image) (row col : Int)
    (channel : Fin 3)
    (hrow : 0 ≤ row ∧ row < img.height) (hcol : 0 ≤ col ∧ col < img.width) :
    jpegfunk1.num_values R img row col =
        ((jpegfunk1.collect R img row col channel).length : Int) ∧
      jpegfunk1.collect R img row col channel ≠ [] := by
  have hb := jpegfunk1.bounds_in_range R img row col hrow hcol
  have hlen := jpegfunk1.length_window R img row col (by omega) (by omega)
  rw [jpegfunk1.length_collect]
  refine ⟨hlen.symm, ?_⟩
  have hpos : 0 < jpegfunk1.num_values R img row col := by
    unfold jpegfunk1.num_values
    exact mul_pos (by omega) (by omega)
  intro hnil
  have h0 : (jpegfunk1.collect R img row col channel).length = 0 := by rw [hnil]; rfl
  rw [jpegfunk1.length_collect] at h0
  omega

/-- C4: at an in-range pixel the rank operator collects exactly
`n = (row_hi-row_lo+1) * (col_hi-col_lo+1)` samples, one for each cell `(i, j)`
with `row_lo ≤ i ≤ row_hi` and `col_lo ≤ j ≤ col_hi`, read at offset
`i * width + j`, where `radius = max(1, 5*col/width + 20*row/height)` and the
bounds are the truncations (floors, the values being non-negative) of
`max(0, row-radius)`, `min(height, row+radius)`, `max(0, col-radius)` and
`min(width, col+radius)`, each operation on `double` followed by its rounding
(none for exact arithmetic); its result is the truncation of
`max(0, hi - mid/2 + lo/4)` narrowed to a byte, with `lo = sorted[0]`,
`mid = sorted[n/2]` (floor division) and `hi = sorted[n-1]` of the samples
sorted ascending. -/
theorem C4_rank_window_and_value (R : rounding) (img : rgb_image) (row col : Int)
    (channel : Fin 3)
    (hrow : 0 ≤ row ∧ row < img.height) (hcol : 0 ≤ col ∧ col < img.width) :
    ∃ (radius : ℚ) (row_lo row_hi col_lo col_hi n : Int),
      radius = max 1 (R.fl (R.fl (R.fl (5 * (col : ℚ)) / (img.width : ℚ)) +
        R.fl (R.fl (20 * (row : ℚ)) / (img.height : ℚ)))) ∧
      row_lo = ⌊max 0 (R.fl ((row : ℚ) - radius))⌋ ∧
      row_hi = ⌊min (img.height : ℚ) (R.fl ((row : ℚ) + radius))⌋ ∧
      col_lo = ⌊max 0 (R.fl ((col : ℚ) - radius))⌋ ∧
      col_hi = ⌊min (img.width : ℚ) (R.fl ((col : ℚ) + radius))⌋ ∧
      n = (row_hi - row_lo + 1) * (col_hi - col_lo + 1) ∧
      (R = exact_arithmetic →
        radius = max 1 (5 * (col : ℚ) / (img.width : ℚ) + 20 * (row : ℚ) / (img.height : ℚ)) ∧
        row_lo = ⌊max 0 ((row : ℚ) - radius)⌋ ∧
        row_hi = ⌊min (img.height : ℚ) ((row : ℚ) + radius)⌋ ∧
        col_lo = ⌊max 0 ((col : ℚ) - radius)⌋ ∧
        col_hi = ⌊min (img.width : ℚ) ((col : ℚ) + radius)⌋) ∧
      jpegfunk1.radius R img row col = radius ∧
      jpegfunk1.row_lbound R img row col = row_lo ∧
      jpegfunk1.row_ubound R img row col = row_hi ∧
      jpegfunk1.col_lbound R img row col = col_lo ∧
      jpegfunk1.col_ubound R img row col = col_hi ∧
      jpegfunk1.num_values R img row col = n ∧
      0 < n ∧
      ((jpegfunk1.collect R img row col channel).length : Int) = n ∧
      (jpegfunk1.window R img row col).Nodup ∧
      (∀ i j : Int, (i, j) ∈ jpegfunk1.window R img row col ↔
        (row_lo ≤ i ∧ i ≤ row_hi) ∧ (col_lo ≤ j ∧ j ≤ col_hi)) ∧
      jpegfunk1.collect R img row col channel =
        (jpegfunk1.window R img row col).map
          (fun p => img.RGB channel (p.1 * img.width + p.2)) ∧
      ∃ (sorted : List uchar) (lo mid hi : uchar),
        sorted.Sorted (fun x y => x ≤ y) ∧
        sorted.Perm (jpegfunk1.collect R img row col channel) ∧
        sorted[0]? = some lo ∧ sorted[(n / 2).toNat]? = some mid ∧
        sorted[(n - 1).toNat]? = some hi ∧
        ((jpegfunk1.compute_pixel_value R img row col channel).val : Int) =
          ⌊max 0 ((hi.val : ℚ) - (mid.val : ℚ) / 2 + (lo.val : ℚ) / 4)⌋ % 256 := by
  have hb := jpegfunk1.bounds_in_range R img row col hrow hcol
  have hn := jpegfunk1.num_values_eq_length R img row col channel hrow hcol
  have hradius : jpegfunk1.radius R img row col =
      max 1 (R.fl (R.fl (R.fl (5 * (col : ℚ)) / (img.width : ℚ)) +
        R.fl (R.fl (20 * (row : ℚ)) / (img.height : ℚ)))) := by
    unfold jpegfunk1.radius
    rw [jpegfunk1.MAX_eq_max]
  have h1 := jpegfunk1.row_lbound_eq R img row col
  have h2 := jpegfunk1.row_ubound_eq R img row col (by omega) hrow.1
  have h3 := jpegfunk1.col_lbound_eq R img row col
  have h4 := jpegfunk1.col_ubound_eq R img row col (by omega) hcol.1
  refine ⟨jpegfunk1.radius R img row col, jpegfunk1.row_lbound R img row col,
    jpegfunk1.row_ubound R img row col, jpegfunk1.col_lbound R img row col,
    jpegfunk1.col_ubound R img row col, jpegfunk1.num_values R img row col,
    hradius, h1, h2, h3, h4, rfl, ?_, rfl, rfl, rfl, rfl, rfl, rfl,
    ?_, hn.1.symm, jpegfunk1.nodup_window R img row col,
    fun i j => jpegfunk1.mem_window R img row col i j, ?_, ?_⟩
  · intro hR
    subst hR
    exact ⟨hradius, h1, h2, h3, h4⟩
  · unfold jpegfunk1.num_values
    exact mul_pos (by omega) (by omega)
  · simp [jpegfunk1.collect, jpegfunk1.reads, List.map_map, Function.comp_def]
  · obtain ⟨lo, mid, hi, h0, hm, hl, _, _, hf⟩ :=
      jpegfunk1.order_statistics R (jpegfunk1.collect R img row col channel) hn.2
    refine ⟨jpegfunk1.qsort (jpegfunk1.collect R img row col channel), lo, mid, hi,
      jpegfunk1.sorted_qsort _, jpegfunk1.perm_qsort _, h0, ?_, ?_, ?_⟩
    · rw [hn.1]
      have e : (((jpegfunk1.collect R img row col channel).length : Int) / 2).toNat =
          (jpegfunk1.collect R img row col channel).length / 2 := by omega
      rw [e]
      exact hm
    · rw [hn.1]
      have e : (((jpegfunk1.collect R img row col channel).length : Int) - 1).toNat =
          (jpegfunk1.collect R img row col channel).length - 1 := by omega
      rw [e]
      exact hl
    · unfold jpegfunk1.compute_pixel_value
      rw [hn.1, hf, jpegfunk1.funky_exact, jpegfunk1.MAX_eq_max]
      exact jpegfunk1.uchar_of_double_val _ (le_max_left _ _)

theorem small_raster_radius : jpegfunk1.radius exact_arithmetic small_raster 0 0 = 1 := by
  norm_num [jpegfunk1.radius, jpegfunk1.MAX, small_raster, exact_arithmetic]

theorem small_raster_bounds :
    jpegfunk1.row_lbound exact_arithmetic small_raster 0 0 = 0 ∧
    jpegfunk1.row_ubound exact_arithmetic small_raster 0 0 = 1 ∧
    jpegfunk1.col_lbound exact_arithmetic small_raster 0 0 = 0 ∧
    jpegfunk1.col_ubound exact_arithmetic small_raster 0 0 = 1 := by
  simp only [jpegfunk1.row_lbound, jpegfunk1.row_ubound, jpegfunk1.col_lbound,
    jpegfunk1.col_ubound, small_raster_radius]
  norm_num [jpegfunk1.MAX, jpegfunk1.MIN, jpegfunk1.to_int, small_raster, exact_arithmetic]

theorem small_raster_window :
    jpegfunk1.window exact_arithmetic small_raster 0 0 = [(0, 0), (0, 1), (1, 0), (1, 1)] := by
  simp only [jpegfunk1.window, small_raster_bounds]
  decide

theorem small_raster_value :
    jpegfunk1.compute_pixel_value exact_arithmetic small_raster 0 0 1 = 158 := by
  have hc : jpegfunk1.collect exact_arithmetic small_raster 0 0 1 = [10, 40, 90, 201] := by
    simp only [jpegfunk1.collect, jpegfunk1.reads, small_raster_window]
    decide
  have hn : jpegfunk1.num_values exact_arithmetic small_raster 0 0 = 4 := by
    simp only [jpegfunk1.num_values, small_raster_bounds]
    decide
  have hs : jpegfunk1.qsort [10, 40, 90, 201] = [10, 40, 90, 201] := by decide
  unfold jpegfunk1.compute_pixel_value
  rw [hc, hn]
  unfold jpegfunk1.funky
  rw [hs]
  have h1 : ((4 : Int) - 1).toNat = 3 := by decide
  have h2 : (Int.tdiv 4 2).toNat = 2 := by decide
  simp only [h1, h2]
  have ha := jpegfunk1.funky_arith 10 90 201 (by decide) (by decide) (by decide)
  have e : ([10, 40, 90, 201] : List uchar).getD 3 0 = 201 ∧
      ([10, 40, 90, 201] : List uchar).getD 2 0 = 90 ∧
      ([10, 40, 90, 201] : List uchar).getD 0 0 = 10 := by decide
  rw [e.1, e.2.1, e.2.2]
  have c1 : (((201 : uchar).val : ℕ) : ℚ) = ((201 : ℕ) : ℚ) := rfl
  have c2 : (((90 : uchar).val : ℕ) : ℚ) = ((90 : ℕ) : ℚ) := rfl
  have c3 : (((10 : uchar).val : ℕ) : ℚ) = ((10 : ℕ) : ℚ) := rfl
  rw [c1, c2, c3, jpegfunk1.funky_exact, ha.2.1]
  apply Fin.ext
  have hv := ha.2.2.2
  have : ((4 * ((201 : ℕ) : Int) - 2 * ((90 : ℕ) : Int) + ((10 : ℕ) : Int)) / 4 : Int) = 158 := by
    decide
  rw [this] at hv
  exact_mod_cast hv

/-- C4, for exact arithmetic at the pixel (0, 0) of channel 1 of the 2×2
raster: radius 1, the window is the whole raster, `n = 4`, the sorted samples
are 10, 40, 90, 201 and the result is `trunc(201 - 90/2 + 10/4) = 158`. -/
theorem C4_rank_window_and_value_witness :
    (∃ n : Int, jpegfunk1.num_values exact_arithmetic small_raster 0 0 = n ∧ 0 < n ∧
      ((jpegfunk1.collect exact_arithmetic small_raster 0 0 1).length : Int) = n) ∧
    jpegfunk1.radius exact_arithmetic small_raster 0 0 = 1 ∧
    jpegfunk1.window exact_arithmetic small_raster 0 0 = [(0, 0), (0, 1), (1, 0), (1, 1)] ∧
    jpegfunk1.compute_pixel_value exact_arithmetic small_raster 0 0 1 = 158 := by
  obtain ⟨_, _, _, _, _, n, _, _, _, _, _, _, _, _, _, _, _, _, hn, hpos, hlen, _⟩ :=
    C4_rank_window_and_value exact_arithmetic small_raster 0 0 1 (by decide) (by decide)
  exact ⟨⟨n, hn, hpos, hlen⟩, small_raster_radius, small_raster_window, small_raster_value⟩

/-- The window of a pixel depends on the raster through its dimensions only. -/
theorem jpegfunk1.reads_of_dims (R : rounding) (a b : rgb_image) (row col : Int)
    (hh : a.height = b.height) (hw : a.width = b.width) :
    jpegfunk1.reads R a row col = jpegfunk1.reads R b row col ∧
      jpegfunk1.num_values R a row col = jpegfunk1.num_values R b row col := by
  cases a
  cases b
  simp only at hh hw
  subst hh hw
  exact ⟨rfl, rfl⟩

/-- At a pixel of the last row the window contains the cells `(height, j)`,
read at offsets past the end of the buffer. -/
theorem jpegfunk1.last_row_window (R : rounding) (img : rgb_image) (col j : Int)
    (_hw : 0 < img.width) (hh : 0 < img.height) (hcol : 0 ≤ col ∧ col < img.width)
    (hj1 : jpegfunk1.col_lbound R img (img.height - 1) col ≤ j)
    (hj2 : j ≤ jpegfunk1.col_ubound R img (img.height - 1) col) :
    (img.height, j) ∈ jpegfunk1.window R img (img.height - 1) col ∧
    img.height * img.width + j ∈ jpegfunk1.reads R img (img.height - 1) col ∧
    img.width * img.height ≤ img.height * img.width + j ∧
    ¬ img.in_buffer (img.height * img.width + j) := by
  have hb := jpegfunk1.bounds_in_range R img (img.height - 1) col ⟨by omega, by omega⟩ hcol
  have hmem : (img.height, j) ∈ jpegfunk1.window R img (img.height - 1) col := by
    rw [jpegfunk1.mem_window]
    exact ⟨⟨by omega, by omega⟩, hj1, hj2⟩
  have hcomm : img.width * img.height = img.height * img.width := mul_comm _ _
  refine ⟨hmem, List.mem_map.2 ⟨(img.height, j), hmem, rfl⟩, by omega, ?_⟩
  unfold rgb_image.in_buffer
  omega

/-- The offsets read at an in-range pixel lie between 0 and one row plus one
sample past the last offset of the buffer. -/
theorem jpegfunk1.reads_range (R : rounding) (img : rgb_image) (row col k : Int)
    (hrow : 0 ≤ row ∧ row < img.height) (hcol : 0 ≤ col ∧ col < img.width)
    (hk : k ∈ jpegfunk1.reads R img row col) :
    0 ≤ k ∧ k ≤ img.height * img.width + img.width := by
  have hb := jpegfunk1.bounds_in_range R img row col hrow hcol
  obtain ⟨⟨i, j⟩, hmem, rfl⟩ := List.mem_map.1 hk
  rw [jpegfunk1.mem_window] at hmem
  have hw : 0 < img.width := by omega
  have hi0 : 0 ≤ i := by omega
  have h1 : 0 ≤ i * img.width := mul_nonneg hi0 hw.le
  have h2 : i * img.width ≤ img.height * img.width :=
    Int.mul_le_mul_of_nonneg_right (by omega) hw.le
  constructor
  · show 0 ≤ i * img.width + j
    omega
  · show i * img.width + j ≤ img.height * img.width + img.width
    omega

/-- The largest sample is at least every collected sample. -/
theorem jpegfunk1.le_last_of_mem (values : List uchar) (x hi : uchar) (hx : x ∈ values)
    (hhi : (jpegfunk1.qsort values)[values.length - 1]? = some hi) : x ≤ hi := by
  have hs := jpegfunk1.sorted_qsort values
  have hlen := jpegfunk1.length_qsort values
  have hx2 : x ∈ jpegfunk1.qsort values := (jpegfunk1.perm_qsort values).mem_iff.2 hx
  obtain ⟨i, hi1, hi2⟩ := List.getElem_of_mem hx2
  have hl : values.length - 1 < (jpegfunk1.qsort values).length := by omega
  rw [List.getElem?_eq_getElem hl] at hhi
  have e : (jpegfunk1.qsort values)[values.length - 1] = hi := Option.some.inj hhi
  rw [← e, ← hi2]
  exact hs.rel_get_of_le (a := ⟨i, hi1⟩) (b := ⟨values.length - 1, hl⟩)
    (by show i ≤ values.length - 1; omega)

/-- An entry of the sorted array is one of the collected samples. -/
theorem jpegfunk1.mem_of_sorted_entry (values : List uchar) (i : Nat) (x : uchar)
    (h : (jpegfunk1.qsort values)[i]? = some x) : x ∈ values :=
  (jpegfunk1.perm_qsort values).mem_iff.1 (List.getElem?_mem h)

/-- The rank operator returns 0 where every sample it reads is 0. -/
theorem jpegfunk1.value_of_zero_window (R : rounding) (img : rgb_image) (row col : Int)
    (channel : Fin 3) (hrow : 0 ≤ row ∧ row < img.height) (hcol : 0 ≤ col ∧ col < img.width)
    (hz : ∀ k ∈ jpegfunk1.reads R img row col, img.RGB channel k = 0) :
    jpegfunk1.compute_pixel_value R img row col channel = 0 := by
  have hn := jpegfunk1.num_values_eq_length R img row col channel hrow hcol
  have hall : ∀ x ∈ jpegfunk1.collect R img row col channel, x = 0 := by
    intro x hx
    obtain ⟨k, hk, rfl⟩ := List.mem_map.1 hx
    exact hz k hk
  obtain ⟨lo, mid, hi, h0, hm, hl, _, _, hf⟩ :=
    jpegfunk1.order_statistics R (jpegfunk1.collect R img row col channel) hn.2
  have elo : lo = 0 := hall lo (jpegfunk1.mem_of_sorted_entry _ _ _ h0)
  have emid : mid = 0 := hall mid (jpegfunk1.mem_of_sorted_entry _ _ _ hm)
  have ehi : hi = 0 := hall hi (jpegfunk1.mem_of_sorted_entry _ _ _ hl)
  subst elo emid ehi
  have ha := jpegfunk1.funky_arith 0 0 0 (le_refl 0) (le_refl 0) (by decide)
  unfold jpegfunk1.compute_pixel_value
  rw [hn.1, hf]
  have c0 : (((0 : uchar).val : ℕ) : ℚ) = ((0 : ℕ) : ℚ) := rfl
  rw [c0, jpegfunk1.funky_exact, ha.2.1]
  apply Fin.ext
  have hv := ha.2.2.2
  have e : ((4 * ((0 : ℕ) : Int) - 2 * ((0 : ℕ) : Int) + ((0 : ℕ) : Int)) / 4 : Int) = 0 := by
    decide
  rw [e] at hv
  exact_mod_cast hv

/-- The rank operator returns at least 127 where one sample it reads is 255. -/
theorem jpegfunk1.value_of_ff_in_window (R : rounding) (img : rgb_image) (row col : Int)
    (channel : Fin 3) (hrow : 0 ≤ row ∧ row < img.height) (hcol : 0 ≤ col ∧ col < img.width)
    (k : Int) (hk : k ∈ jpegfunk1.reads R img row col) (hff : img.RGB channel k = 255) :
    127 ≤ (jpegfunk1.compute_pixel_value R img row col channel).val := by
  have hn := jpegfunk1.num_values_eq_length R img row col channel hrow hcol
  have hmem : (255 : uchar) ∈ jpegfunk1.collect R img row col channel :=
    List.mem_map.2 ⟨k, hk, hff⟩
  obtain ⟨lo, mid, hi, h0, hm, hl, hlm, hmh, hf⟩ :=
    jpegfunk1.order_statistics R (jpegfunk1.collect R img row col channel) hn.2
  have hge : (255 : uchar) ≤ hi := jpegfunk1.le_last_of_mem _ _ _ hmem hl
  have hge2 : 255 ≤ hi.val := hge
  have h255 : hi.val ≤ 255 := by have := hi.isLt; omega
  have hlm2 : lo.val ≤ mid.val := hlm
  have hmh2 : mid.val ≤ hi.val := hmh
  have ha := jpegfunk1.funky_arith lo.val mid.val hi.val hlm hmh h255
  unfold jpegfunk1.compute_pixel_value
  rw [hn.1, hf, jpegfunk1.funky_exact, ha.2.1]
  have hv := ha.2.2.2
  omega

theorem live_fold_untouched (op : rgb_image → Int → Int → Fin 3 → uchar)
    (beyond : rgb_image → Fin 3 → Int → uchar) (input : rgb_image) (l : List iteration)
    (out : rgb_image) (c : Fin 3) (k : Int) (h : (c, k) ∉ l.map (target input)) :
    (l.foldl (live_body op beyond input) out).RGB c k = out.RGB c k := by
  induction l generalizing out with
  | nil => rfl
  | cons a l ih =>
    simp only [List.map_cons, List.mem_cons, not_or] at h
    simp only [List.foldl_cons]
    rw [ih (live_body op beyond input out a) h.2]
    have h1 : ¬ (c = a.2.2 ∧ k = a.1 * input.width + a.2.1) := by
      rintro ⟨rfl, rfl⟩
      exact h.1 rfl
    simp [live_body, rgb_image.store, h1]

/-- The value an iteration leaves in its cell is the operator evaluated on the
heap as the earlier iterations of the run left it, provided no later iteration
writes the cell. -/
theorem live_fold_written (op : rgb_image → Int → Int → Fin 3 → uchar)
    (beyond : rgb_image → Fin 3 → Int → uchar) (input out : rgb_image)
    (before : List iteration) (it : iteration) (after : List iteration)
    (h : target input it ∉ after.map (target input)) :
    ((before ++ it :: after).foldl (live_body op beyond input) out).RGB it.2.2
        (it.1 * input.width + it.2.1) =
      op (seen beyond input (before.foldl (live_body op beyond input) out))
        it.1 it.2.1 it.2.2 := by
  rw [List.foldl_append, List.foldl_cons]
  rw [live_fold_untouched op beyond input after _ it.2.2 (it.1 * input.width + it.2.1) h]
  simp [live_body, rgb_image.store]

/-- Where every byte the operator reads lies inside the input buffer, the live
heap does not enter the result. -/
theorem jpegfunk1.value_of_seen_in_buffer (R : rounding)
    (beyond : rgb_image → Fin 3 → Int → uchar) (input out : rgb_image) (row col : Int)
    (channel : Fin 3)
    (hin : ∀ k ∈ jpegfunk1.reads R input row col, input.in_buffer k) :
    jpegfunk1.compute_pixel_value R (seen beyond input out) row col channel =
      jpegfunk1.compute_pixel_value R input row col channel := by
  have hd := jpegfunk1.reads_of_dims R (seen beyond input out) input row col rfl rfl
  unfold jpegfunk1.compute_pixel_value jpegfunk1.collect
  rw [hd.1, hd.2]
  congr 2
  apply List.map_congr_left
  intro k hk
  show (if input.in_buffer k then input.RGB channel k else beyond out channel k) =
    input.RGB channel k
  rw [if_pos (hin k hk)]

/-- At the pixel (1, 0) of a raster one wide and two high the offset 2, the
first byte past the end of the buffer, is read. -/
theorem thin_reads (R : rounding) (M : rgb_image) (hh : M.height = 2) (hw : M.width = 1) :
    (2 : Int) ∈ jpegfunk1.reads R M 1 0 ∧
    (∀ k ∈ jpegfunk1.reads R M 1 0, 0 ≤ k ∧ k ≤ 3) ∧
    (∀ k ∈ jpegfunk1.reads R M 0 0, 0 ≤ k ∧ k ≤ 3) := by
  have hb := jpegfunk1.bounds_in_range R M (M.height - 1) 0 ⟨by omega, by omega⟩
    ⟨le_refl 0, by omega⟩
  have h := jpegfunk1.last_row_window R M 0 0 (by omega) (by omega) ⟨le_refl 0, by omega⟩
    hb.2.2.1.2 (by omega)
  have e1 : M.height - 1 = 1 := by omega
  have e2 : M.height * M.width + 0 = 2 := by rw [hh, hw]; rfl
  rw [e1, e2] at h
  refine ⟨h.2.1, fun k hk => ?_, fun k hk => ?_⟩
  · have := jpegfunk1.reads_range R M 1 0 k ⟨by omega, by omega⟩ ⟨le_refl 0, by omega⟩ hk
    rw [hh, hw] at this
    omega
  · have := jpegfunk1.reads_range R M 0 0 k ⟨by omega, by omega⟩ ⟨le_refl 0, by omega⟩ hk
    rw [hh, hw] at this
    omega

/-- With the heap `output_follows`, the channels 0 and 1 of `thin_raster` are
filtered to 0 whatever the output buffers hold. -/
theorem thin_value_low_channels (R : rounding) (out : rgb_image) (row : Int) (c : Fin 3)
    (hrow : 0 ≤ row ∧ row < 2) (hc : c ≠ 2) :
    jpegfunk1.compute_pixel_value R (seen output_follows thin_raster out) row 0 c = 0 := by
  refine jpegfunk1.value_of_zero_window R _ row 0 c hrow
    ⟨le_refl 0, by show (0 : Int) < 1; decide⟩ (fun k _ => ?_)
  show (if thin_raster.in_buffer k then (0 : uchar) else if c = 2 then _ else 0) = 0
  rw [if_neg hc]
  split_ifs <;> rfl


theorem seen_in_buffer (beyond : rgb_image → Fin 3 → Int → uchar) (input out : rgb_image)
    (c : Fin 3) (k : Int) (h : input.in_buffer k) :
    (seen beyond input out).RGB c k = input.RGB c k := by
  show (if input.in_buffer k then input.RGB c k else beyond out c k) = input.RGB c k
  rw [if_pos h]

theorem seen_past_end (beyond : rgb_image → Fin 3 → Int → uchar) (input out : rgb_image)
    (c : Fin 3) (k : Int) (h : ¬ input.in_buffer k) :
    (seen beyond input out).RGB c k = beyond out c k := by
  show (if input.in_buffer k then input.RGB c k else beyond out c k) = beyond out c k
  rw [if_neg h]

theorem thin_sequential_order :
    (omp_run.sequential thin_raster 0).order =
      [(0, 0, 0), (0, 0, 1), (0, 0, 2), (1, 0, 0), (1, 0, 1)] ++ [(1, 0, 2)] := by
  decide

theorem thin_sequential_last (R : rounding) (beyond : rgb_image → Fin 3 → Int → uchar) :
    (jpegfunk1.apply_filter R beyond thin_raster fresh_output 1
      (omp_run.sequential thin_raster 0)).RGB 2 1 =
    jpegfunk1.compute_pixel_value R (seen beyond thin_raster
      (([(0, 0, 0), (0, 0, 1), (0, 0, 2), (1, 0, 0), (1, 0, 1)] : List iteration).foldl
        (live_body (jpegfunk1.compute_pixel_value R) beyond thin_raster) fresh_output))
      1 0 2 := by
  unfold jpegfunk1.apply_filter apply_filter_live
  rw [thin_sequential_order]
  have h := live_fold_written (jpegfunk1.compute_pixel_value R) beyond thin_raster fresh_output
    [(0, 0, 0), (0, 0, 1), (0, 0, 2), (1, 0, 0), (1, 0, 1)] (1, 0, 2) [] (by simp)
  have e : ((1, 0, 2) : iteration).1 * thin_raster.width + ((1, 0, 2) : iteration).2.1 = 1 := by
    decide
  rw [e] at h
  exact h

theorem thin_late_third (R : rounding) :
    (jpegfunk1.apply_filter R output_follows thin_raster fresh_output 2
      late_row_first).RGB 2 1 =
    jpegfunk1.compute_pixel_value R (seen output_follows thin_raster
      (([(1, 0, 0), (1, 0, 1)] : List iteration).foldl
        (live_body (jpegfunk1.compute_pixel_value R) output_follows thin_raster)
        fresh_output)) 1 0 2 := by
  unfold jpegfunk1.apply_filter apply_filter_live
  have ho : late_row_first.order =
      [(1, 0, 0), (1, 0, 1)] ++ (1, 0, 2) :: [(0, 0, 0), (0, 0, 1), (0, 0, 2)] := by decide
  rw [ho]
  have h := live_fold_written (jpegfunk1.compute_pixel_value R) output_follows thin_raster
    fresh_output [(1, 0, 0), (1, 0, 1)] (1, 0, 2) [(0, 0, 0), (0, 0, 1), (0, 0, 2)] (by decide)
  have e : ((1, 0, 2) : iteration).1 * thin_raster.width + ((1, 0, 2) : iteration).2.1 = 1 := by
    decide
  rw [e] at h
  exact h

theorem thin_in_range (M : rgb_image) (hh : M.height = 2) (hw : M.width = 1) :
    ((0 : Int) ≤ 1 ∧ (1 : Int) < M.height) ∧ ((0 : Int) ≤ 0 ∧ (0 : Int) < M.width) := by
  rw [hh, hw]
  decide

theorem thin_not_in_buffer : ¬ thin_raster.in_buffer 2 ∧ ¬ thin_raster.in_buffer 3 ∧
    thin_raster.in_buffer 0 ∧ thin_raster.in_buffer 1 := by
  decide

/-- In a sequential run on a heap whose bytes past the buffers hold `pad`. -/
theorem thin_sequential_pad (R : rounding) :
    (jpegfunk1.apply_filter R (fun _ _ _ => 0) thin_raster fresh_output 1
        (omp_run.sequential thin_raster 0)).RGB 2 1 = 0 ∧
      127 ≤ ((jpegfunk1.apply_filter R (fun _ _ _ => 255) thin_raster fresh_output 1
        (omp_run.sequential thin_raster 0)).RGB 2 1).val := by
  constructor
  · rw [thin_sequential_last]
    refine jpegfunk1.value_of_zero_window R _ 1 0 2 (thin_in_range _ rfl rfl).1
      (thin_in_range _ rfl rfl).2 (fun k _ => ?_)
    by_cases hk : thin_raster.in_buffer k
    · rw [seen_in_buffer _ _ _ _ _ hk]
      rfl
    · rw [seen_past_end _ _ _ _ _ hk]
  · rw [thin_sequential_last]
    refine jpegfunk1.value_of_ff_in_window R _ 1 0 2 (thin_in_range _ rfl rfl).1
      (thin_in_range _ rfl rfl).2 2 (thin_reads R _ rfl rfl).1 ?_
    rw [seen_past_end _ _ _ _ _ thin_not_in_buffer.1]

/-- The operator on two memories holding the raster `thin_raster`. -/
theorem thin_same_raster (R : rounding) :
    (∀ (c : Fin 3) (k : Int), thin_raster.in_buffer k →
        (zero_buffers thin_raster 0).RGB c k = thin_raster.RGB c k ∧
        (zero_buffers thin_raster 255).RGB c k = thin_raster.RGB c k) ∧
      jpegfunk1.compute_pixel_value R (zero_buffers thin_raster 0) 1 0 2 = 0 ∧
      127 ≤ (jpegfunk1.compute_pixel_value R (zero_buffers thin_raster 255) 1 0 2).val := by
  have hz : ∀ (pad : uchar) (c : Fin 3) (k : Int), thin_raster.in_buffer k →
      (zero_buffers thin_raster pad).RGB c k = 0 := by
    intro pad c k hk
    show (if thin_raster.in_buffer k then (0 : uchar) else pad) = 0
    rw [if_pos hk]
  refine ⟨fun c k hk => ⟨hz 0 c k hk, hz 255 c k hk⟩, ?_, ?_⟩
  · refine jpegfunk1.value_of_zero_window R _ 1 0 2 (thin_in_range _ rfl rfl).1
      (thin_in_range _ rfl rfl).2 (fun k _ => ?_)
    show (if thin_raster.in_buffer k then (0 : uchar) else 0) = 0
    split_ifs <;> rfl
  · refine jpegfunk1.value_of_ff_in_window R _ 1 0 2 (thin_in_range _ rfl rfl).1
      (thin_in_range _ rfl rfl).2 2 (thin_reads R _ rfl rfl).1 ?_
    show (if thin_raster.in_buffer 2 then (0 : uchar) else 255) = 255
    rw [if_neg thin_not_in_buffer.1]

/-- With the output buffer of channel 0 behind the input buffer of channel 2,
the sequential run leaves 0 in the cell (1, 0) of channel 2. -/
theorem thin_sequential_follows (R : rounding) :
    (jpegfunk1.apply_filter R output_follows thin_raster fresh_output 1
      (omp_run.sequential thin_raster 0)).RGB 2 1 = 0 := by
  rw [thin_sequential_last]
  refine jpegfunk1.value_of_zero_window R _ 1 0 2 (thin_in_range _ rfl rfl).1
    (thin_in_range _ rfl rfl).2 (fun k hk => ?_)
  have hr := (thin_reads R _ rfl rfl).2.1 k hk
  have c0 := live_fold_written (jpegfunk1.compute_pixel_value R) output_follows thin_raster
    fresh_output [] (0, 0, 0) [(0, 0, 1), (0, 0, 2), (1, 0, 0), (1, 0, 1)] (by decide)
  have c1 := live_fold_written (jpegfunk1.compute_pixel_value R) output_follows thin_raster
    fresh_output [(0, 0, 0), (0, 0, 1), (0, 0, 2)] (1, 0, 0) [(1, 0, 1)] (by decide)
  rw [thin_value_low_channels R _ 0 0 (by decide) (by decide)] at c0
  rw [thin_value_low_channels R _ 1 0 (by decide) (by decide)] at c1
  have e0 : ((0, 0, 0) : iteration).1 * thin_raster.width + ((0, 0, 0) : iteration).2.1 = 0 := by
    decide
  have e1 : ((1, 0, 0) : iteration).1 * thin_raster.width + ((1, 0, 0) : iteration).2.1 = 1 := by
    decide
  rw [e0] at c0
  rw [e1] at c1
  have hk4 : k = 0 ∨ k = 1 ∨ k = 2 ∨ k = 3 := by omega
  rcases hk4 with rfl | rfl | rfl | rfl
  · rw [seen_in_buffer _ _ _ _ _ thin_not_in_buffer.2.2.1]
    rfl
  · rw [seen_in_buffer _ _ _ _ _ thin_not_in_buffer.2.2.2]
    rfl
  · rw [seen_past_end _ _ _ _ _ thin_not_in_buffer.1]
    show (if (2 : Fin 3) = 2 then _ else (0 : uchar)) = 0
    rw [if_pos rfl]
    exact c0
  · rw [seen_past_end _ _ _ _ _ thin_not_in_buffer.2.1]
    show (if (2 : Fin 3) = 2 then _ else (0 : uchar)) = 0
    rw [if_pos rfl]
    exact c1

/-- With the same heap, the run in which row 1 takes effect first leaves at
least 127 in that cell. -/
theorem thin_late_follows (R : rounding) :
    127 ≤ ((jpegfunk1.apply_filter R output_follows thin_raster fresh_output 2
      late_row_first).RGB 2 1).val := by
  rw [thin_late_third]
  refine jpegfunk1.value_of_ff_in_window R _ 1 0 2 (thin_in_range _ rfl rfl).1
    (thin_in_range _ rfl rfl).2 2 (thin_reads R _ rfl rfl).1 ?_
  rw [seen_past_end _ _ _ _ _ thin_not_in_buffer.1]
  show (if (2 : Fin 3) = 2 then _ else (0 : uchar)) = 255
  rw [if_pos rfl]
  exact live_fold_untouched (jpegfunk1.compute_pixel_value R) output_follows thin_raster
    [(1, 0, 0), (1, 0, 1)] fresh_output 0 0 (by decide)

/-- The rank filter on the live heap: every run leaves, at an in-range cell
whose window offsets all lie inside the input buffer, the value
`compute_pixel_value(input, row, col, channel)`, whatever the heap holds. -/
theorem jpegfunk1.apply_filter_cell_in_buffer (R : rounding)
    (beyond : rgb_image → Fin 3 → Int → uchar) (input output : rgb_image) (n : Int)
    (r : omp_run input n) (row col : Int) (channel : Fin 3)
    (hrow : 0 ≤ row ∧ row < input.height) (hcol : 0 ≤ col ∧ col < input.width)
    (hin : ∀ k ∈ jpegfunk1.reads R input row col, input.in_buffer k) :
    (jpegfunk1.apply_filter R beyond input output n r).RGB channel (row * input.width + col) =
      jpegfunk1.compute_pixel_value R input row col channel := by
  have hmem : ((row, col, channel) : iteration) ∈ r.order :=
    r.order_perm.mem_iff.2 (mem_iterations.2 ⟨hrow, hcol⟩)
  obtain ⟨before, after, hsplit⟩ := List.append_of_mem hmem
  have hnd := r.nodup_writes
  unfold omp_run.writes at hnd
  rw [hsplit, List.map_append, List.map_cons] at hnd
  have hafter : target input (row, col, channel) ∉ after.map (target input) :=
    (List.nodup_cons.1 (List.nodup_append.1 hnd).2.1).1
  unfold jpegfunk1.apply_filter apply_filter_live
  rw [hsplit]
  have h := live_fold_written (jpegfunk1.compute_pixel_value R) beyond input output before
    (row, col, channel) after hafter
  rw [jpegfunk1.value_of_seen_in_buffer R beyond input _ row col channel hin] at h
  exact h

/-- C5, evaluated at a raster one sample wide and two high whose samples are
all 0: the rank operator reads, at the pixel (1, 0), the samples at offsets 2
and 3 past the two-byte buffer, so the value `apply_filter` leaves there is not
a function of the input raster.  (1) Two memories holding the same raster give
0 and at least 127.  (2) In a sequential run the cell (1, 0) of channel 2
receives 0 when the bytes past the buffers hold 0 and at least 127 when they
hold 255.  (3) When the output buffer of channel 0 follows the input buffer of
channel 2, the sequential run leaves 0 in that cell and the two-worker run in
which row 1 takes effect first leaves at least 127: the output rasters of the
two runs differ. -/
theorem C5_rank_filter_depends_on_heap (R : rounding) :
    ((2 : Int) ∈ jpegfunk1.reads R thin_raster 1 0 ∧ ¬ thin_raster.in_buffer 2) ∧
    ((∀ (c : Fin 3) (k : Int), thin_raster.in_buffer k →
        (zero_buffers thin_raster 0).RGB c k = thin_raster.RGB c k ∧
        (zero_buffers thin_raster 255).RGB c k = thin_raster.RGB c k) ∧
      jpegfunk1.compute_pixel_value R (zero_buffers thin_raster 0) 1 0 2 = 0 ∧
      127 ≤ (jpegfunk1.compute_pixel_value R (zero_buffers thin_raster 255) 1 0 2).val) ∧
    ((jpegfunk1.apply_filter R (fun _ _ _ => 0) thin_raster fresh_output 1
        (omp_run.sequential thin_raster 0)).RGB 2 1 = 0 ∧
      127 ≤ ((jpegfunk1.apply_filter R (fun _ _ _ => 255) thin_raster fresh_output 1
        (omp_run.sequential thin_raster 0)).RGB 2 1).val) ∧
    ((jpegfunk1.apply_filter R output_follows thin_raster fresh_output 1
        (omp_run.sequential thin_raster 0)).RGB 2 1 = 0 ∧
      127 ≤ ((jpegfunk1.apply_filter R output_follows thin_raster fresh_output 2
        late_row_first).RGB 2 1).val ∧
      jpegfunk1.apply_filter R output_follows thin_raster fresh_output 1
          (omp_run.sequential thin_raster 0) ≠
        jpegfunk1.apply_filter R output_follows thin_raster fresh_output 2 late_row_first) := by
  have a0 := thin_sequential_follows R
  have b255 := thin_late_follows R
  refine ⟨⟨(thin_reads R thin_raster rfl rfl).1, thin_not_in_buffer.1⟩, thin_same_raster R,
    thin_sequential_pad R, a0, b255, fun heq => ?_⟩
  rw [← heq, a0] at b255
  exact absurd b255 (by decide)
